import Mathlib

/-!
Verification of `smart_ptr::linked_ptr` from `src/linked_ptr.hpp`.

The C++ type is an intrusive reference-tracking smart pointer: every handle
that shares ownership of one heap object is a member of one circular doubly
linked ring (the base class `details::super_linked_ptr` holds the `next` and
`prev` links).  We embed the pointer-manipulating code shallowly: handles are
natural-number ids, a `Heap` maps every id to its node (links plus raw `data`
pointer, with address `0` standing for `nullptr`), and every C++ statement
becomes one functional heap update, in source order.  `delete data` is
modelled by appending the deleted address to a `freed` log.
-/

set_option maxHeartbeats 1000000

namespace LinkedPtr

/-- One handle's state: the two ring links of `details::super_linked_ptr`
and the raw `data` pointer of `linked_ptr<T>` (`0` models `nullptr`). -/
structure Node where
  next : Nat
  prev : Nat
  data : Nat
deriving DecidableEq, Repr

/-- Global state: every id has a node, and `freed` logs every address passed
to `delete`, in order. -/
structure Heap where
  node : Nat → Node
  freed : List Nat

namespace Heap

/-- Overwrite the node stored at id `i`. -/
def writeNode (s : Heap) (i : Nat) (n : Node) : Heap :=
  { node := fun j => if j = i then n else s.node j, freed := s.freed }

/-- Assignment `i->next = v`. -/
def setNext (s : Heap) (i v : Nat) : Heap :=
  s.writeNode i { s.node i with next := v }

/-- Assignment `i->prev = v`. -/
def setPrev (s : Heap) (i v : Nat) : Heap :=
  s.writeNode i { s.node i with prev := v }

/-- Assignment `i->data = v`. -/
def setData (s : Heap) (i v : Nat) : Heap :=
  s.writeNode i { s.node i with data := v }

/-- Source `super_linked_ptr::insert(other)`: splice `this = i` into the ring
right after `oth`.  C++ body, in order:
`other.next->prev = this; next = other.next; prev = &other; other.next = this;`. -/
def insert (s : Heap) (i oth : Nat) : Heap :=
  let s1 := s.setPrev (s.node oth).next i
  let s2 := s1.setNext i (s1.node oth).next
  let s3 := s2.setPrev i oth
  s3.setNext oth i

/-- Source `super_linked_ptr::remove()`: splice `this = i` out of its ring and
reset it to a singleton.  C++ body, in order:
`next->prev = prev; prev->next = next; next = prev = this;`. -/
def remove (s : Heap) (i : Nat) : Heap :=
  let s1 := s.setPrev (s.node i).next (s.node i).prev
  let s2 := s1.setNext (s1.node i).prev (s1.node i).next
  let s3 := s2.setNext i i
  s3.setPrev i i

/-- Source `linked_ptr(T* ptr = nullptr)` and the converting raw-pointer
constructor: the base-class constructor sets `next = prev = this` and the
member initialiser sets `data = ptr`. -/
def construct (s : Heap) (i : Nat) (ptr : Nat) : Heap :=
  s.writeNode i { next := i, prev := i, data := ptr }

/-- Source copy constructor `linked_ptr(const linked_ptr&)` and the converting
copy constructor (the `static_cast` is the identity on our erased addresses):
base constructor, `data = other.data`, then `insert(other)`. -/
def copyConstruct (s : Heap) (i oth : Nat) : Heap :=
  (s.construct i (s.node oth).data).insert i oth

/-- Source move constructor `linked_ptr(linked_ptr&& other)`: the base class is
default-constructed (links self), `data` is left uninitialised (modelled as
`0`; it is overwritten before any read), then
`insert(other); data = other.data; other.remove(); other.data = nullptr;`. -/
def moveConstruct (s : Heap) (i oth : Nat) : Heap :=
  let s1 := (s.construct i 0).insert i oth
  let s2 := s1.setData i (s1.node oth).data
  let s3 := s2.remove oth
  s3.setData oth 0

/-- Source `linked_ptr::unique()`:
`next == this && prev == this && data != nullptr`. -/
def unique (s : Heap) (i : Nat) : Bool :=
  ((s.node i).next == i) && ((s.node i).prev == i) && ((s.node i).data != 0)

/-- Source private `linked_ptr::is_unique()`: `next == this && prev == this`
(the data pointer is not consulted). -/
def is_unique (s : Heap) (i : Nat) : Bool :=
  ((s.node i).next == i) && ((s.node i).prev == i)

/-- Source private `linked_ptr::delete_if_unique()`:
`if (unique()) { delete data; data = nullptr; }`.  The `delete` is modelled by
logging the address in `freed`. -/
def delete_if_unique (s : Heap) (i : Nat) : Heap :=
  if s.unique i then
    ({ node := s.node, freed := s.freed ++ [(s.node i).data] } : Heap).setData i 0
  else s

/-- Source destructor `~linked_ptr()`: `delete_if_unique(); remove();`. -/
def destruct (s : Heap) (i : Nat) : Heap :=
  (s.delete_if_unique i).remove i

/-- Source copy assignment `operator=(const linked_ptr&)`:
`if (&other != this) { this->~linked_ptr(); new (this) linked_ptr(other); }`. -/
def copyAssign (s : Heap) (i oth : Nat) : Heap :=
  if oth ≠ i then (s.destruct i).copyConstruct i oth else s

/-- Source move assignment `operator=(linked_ptr&& other)`: destroy, placement
copy-construct from `other` (inside the function `other` is an lvalue, so the
copy constructor is selected), then `other.remove(); other.data = nullptr;`. -/
def moveAssign (s : Heap) (i oth : Nat) : Heap :=
  let s1 := (s.destruct i).copyConstruct i oth
  let s2 := s1.remove oth
  s2.setData oth 0

/-- Source converting assignment `operator=(linked_ptr<U> const&)`:
`if (next != other.next && prev != other.prev) { this->~linked_ptr(); new (this) linked_ptr(other); }`. -/
def convAssign (s : Heap) (i oth : Nat) : Heap :=
  if (s.node i).next ≠ (s.node oth).next ∧ (s.node i).prev ≠ (s.node oth).prev then
    (s.destruct i).copyConstruct i oth
  else s

/-- Source `linked_ptr::reset(T* ptr)`:
`delete_if_unique(); remove(); data = ptr;`. -/
def reset (s : Heap) (i : Nat) (ptr : Nat) : Heap :=
  ((s.delete_if_unique i).remove i).setData i ptr

/-- Source `linked_ptr::swap(linked_ptr& other)` with `this = i`,
`other = oth`; the fuel argument bounds the single delegating recursive call
`other.swap(*this)` (two levels always suffice, see `swap`).  Each `std::swap`
of two lvalues is modelled by reading both locations and then writing both. -/
def swapGo : Nat → Heap → Nat → Nat → Heap
  | 0, s, _, _ => s
  | fuel + 1, s, i, oth =>
    if (s.node oth).data == (s.node i).data then s
    else
      let di := (s.node i).data
      let dj := (s.node oth).data
      let s1 := (s.setData i dj).setData oth di
      if s1.is_unique i then
        if s1.is_unique oth then s1
        else
          let s2 := s1.setPrev (s1.node oth).next i
          let s3 := s2.setNext i (s2.node oth).next
          let s4 := s3.setNext oth i
          let s5 := s4.setPrev i oth
          s5.remove oth
      else if s1.is_unique oth then
        let a := (s1.node i).data
        let b := (s1.node oth).data
        let s2 := (s1.setData i b).setData oth a
        swapGo fuel s2 oth i
      else
        let on1 := (s1.node oth).next
        let in1 := (s1.node i).next
        let p1 := (s1.node on1).prev
        let p2 := (s1.node in1).prev
        let s2 := (s1.setPrev on1 p2).setPrev in1 p1
        let op1 := (s2.node oth).prev
        let ip1 := (s2.node i).prev
        let q1 := (s2.node op1).next
        let q2 := (s2.node ip1).next
        let s3 := (s2.setNext op1 q2).setNext ip1 q1
        let e1 := (s3.node oth).next
        let e2 := (s3.node i).next
        let s4 := (s3.setNext oth e2).setNext i e1
        let f1 := (s4.node oth).prev
        let f2 := (s4.node i).prev
        (s4.setPrev oth f2).setPrev i f1

/-- Source `linked_ptr::swap`.  The delegation `other.swap(*this)` fires only
when `this` is not a singleton and `other` is; on re-entry the new `this` is a
singleton, so the re-entrant call returns without recursing again — fuel `2`
is always enough. -/
def swap (s : Heap) (i oth : Nat) : Heap := swapGo 2 s i oth

/-- Source `operator==`: `data == rhs.data`. -/
def eqOp (s : Heap) (i j : Nat) : Bool :=
  (s.node i).data == (s.node j).data

/-- Source `operator<`: `data < rhs.data` (address order). -/
def ltOp (s : Heap) (i j : Nat) : Bool :=
  decide ((s.node i).data < (s.node j).data)

/-- Source `operator!=`: `data != rhs.data`. -/
def neOp (s : Heap) (i j : Nat) : Bool :=
  (s.node i).data != (s.node j).data

/-- Source `linked_ptr::get()`. -/
def get (s : Heap) (i : Nat) : Nat :=
  (s.node i).data

/-- Source `explicit operator bool()`: `data != nullptr`. -/
def boolOp (s : Heap) (i : Nat) : Bool :=
  (s.node i).data != 0

/-- Source `make_linked<T>(args...)`: allocate (`addr` is the fresh address
returned by `new T(...)`) and wrap it in a fresh singleton handle. -/
def make_linked (s : Heap) (i : Nat) (addr : Nat) : Heap :=
  s.construct i addr

end Heap

/-- The successor link viewed as a function on ids. -/
def nextFun (s : Heap) (x : Nat) : Nat := (s.node x).next

/-- Ring adjacency: `b` directly follows `a` (`a->next == b && b->prev == a`). -/
def adj (s : Heap) (a b : Nat) : Prop :=
  (s.node a).next = b ∧ (s.node b).prev = a

instance (s : Heap) : DecidableRel (adj s) := fun a b =>
  inferInstanceAs (Decidable ((s.node a).next = b ∧ (s.node b).prev = a))

instance decidableChainAdj (s : Heap) :
    ∀ (a : Nat) (l : List Nat), Decidable (List.Chain (adj s) a l)
  | _, [] => isTrue List.Chain.nil
  | a, b :: l =>
    haveI : Decidable (List.Chain (adj s) b l) := decidableChainAdj s b l
    decidable_of_iff (adj s a b ∧ List.Chain (adj s) b l) List.chain_cons.symm

/-- The nonempty duplicate-free list `a :: r` enumerates one circular ring of
the heap in `next` order, starting at `a` and wrapping back to `a`. -/
def isRing (s : Heap) : List Nat → Prop
  | [] => False
  | a :: r => (a :: r).Nodup ∧ List.Chain (adj s) a (r ++ [a])

instance (s : Heap) (l : List Nat) : Decidable (isRing s l) :=
  match l with
  | [] => isFalse (fun h => h)
  | a :: r =>
    inferInstanceAs (Decidable ((a :: r).Nodup ∧ List.Chain (adj s) a (r ++ [a])))

/-- Ambient example heap: every id is an unlinked null singleton. -/
def base : Heap := { node := fun j => { next := j, prev := j, data := 0 }, freed := [] }

/-- One handle (id 1) owning address 10. -/
def exA : Heap := base.construct 1 10

/-- A two-member ring: ids 1 and 2 share address 10. -/
def exAB : Heap := exA.copyConstruct 2 1

/-- A two-member ring on 10 plus a singleton handle (id 3, address 20). -/
def exABc : Heap := exAB.construct 3 20

/-- Two singleton handles: id 1 on address 10 and id 3 on address 20. -/
def exAc : Heap := exA.construct 3 20

/-- Two disjoint two-member rings: ids 1, 2 on address 10 and ids 3, 4 on
address 20. -/
def exABcd : Heap := exABc.copyConstruct 4 3

section NodeLemmas

variable (s : Heap) (i j v : Nat) (n : Node)

@[simp]
theorem node_writeNode_self : (s.writeNode i n).node i = n := by
  simp [Heap.writeNode]

theorem node_writeNode_ne (h : j ≠ i) : (s.writeNode i n).node j = s.node j := by
  simp [Heap.writeNode, h]

@[simp]
theorem freed_writeNode : (s.writeNode i n).freed = s.freed := rfl

@[simp]
theorem node_setNext_self : (s.setNext i v).node i = { s.node i with next := v } := by
  simp [Heap.setNext]

theorem node_setNext_ne (h : j ≠ i) : (s.setNext i v).node j = s.node j := by
  simp [Heap.setNext, node_writeNode_ne, h]

@[simp]
theorem node_setPrev_self : (s.setPrev i v).node i = { s.node i with prev := v } := by
  simp [Heap.setPrev]

theorem node_setPrev_ne (h : j ≠ i) : (s.setPrev i v).node j = s.node j := by
  simp [Heap.setPrev, node_writeNode_ne, h]

@[simp]
theorem node_setData_self : (s.setData i v).node i = { s.node i with data := v } := by
  simp [Heap.setData]

theorem node_setData_ne (h : j ≠ i) : (s.setData i v).node j = s.node j := by
  simp [Heap.setData, node_writeNode_ne, h]

@[simp]
theorem freed_setNext : (s.setNext i v).freed = s.freed := rfl

@[simp]
theorem freed_setPrev : (s.setPrev i v).freed = s.freed := rfl

@[simp]
theorem freed_setData : (s.setData i v).freed = s.freed := rfl

@[simp]
theorem freed_construct : (s.construct i v).freed = s.freed := rfl

@[simp]
theorem freed_insert : (s.insert i j).freed = s.freed := rfl

@[simp]
theorem freed_remove : (s.remove i).freed = s.freed := rfl

theorem next_setData : ((s.setData i v).node j).next = (s.node j).next := by
  by_cases h : j = i
  · subst h; simp
  · simp [node_setData_ne, h]

theorem prev_setData : ((s.setData i v).node j).prev = (s.node j).prev := by
  by_cases h : j = i
  · subst h; simp
  · simp [node_setData_ne, h]

theorem data_setNext : ((s.setNext i v).node j).data = (s.node j).data := by
  by_cases h : j = i
  · subst h; simp
  · simp [node_setNext_ne, h]

theorem data_setPrev : ((s.setPrev i v).node j).data = (s.node j).data := by
  by_cases h : j = i
  · subst h; simp
  · simp [node_setPrev_ne, h]

end NodeLemmas

section ChainTools

/-- Adjacency only reads `next` of the left node and `prev` of the right node,
so it transfers between heaps that agree on those two fields. -/
theorem adj_congr {s s' : Heap} {a b : Nat}
    (hn : (s'.node a).next = (s.node a).next)
    (hp : (s'.node b).prev = (s.node b).prev) :
    adj s a b → adj s' a b := by
  rintro ⟨h1, h2⟩
  exact ⟨hn.trans h1, hp.trans h2⟩

/-- A chain of adjacencies transfers between heaps that agree on the `next`
fields of all nodes but the last and on the `prev` fields of all nodes but
the first. -/
theorem chain_adj_congr {s s' : Heap} :
    ∀ (l : List Nat) (a : Nat),
      (∀ x ∈ (a :: l).dropLast, (s'.node x).next = (s.node x).next) →
      (∀ x ∈ l, (s'.node x).prev = (s.node x).prev) →
      List.Chain (adj s) a l → List.Chain (adj s') a l
  | [], _, _, _, _ => List.Chain.nil
  | b :: bs, a, hn, hp, hc => by
    rw [List.chain_cons] at hc ⊢
    refine ⟨adj_congr (hn a ?_) (hp b ?_) hc.1, ?_⟩
    · exact List.mem_cons_self a _
    · exact List.mem_cons_self b bs
    cases bs with
    | nil => exact List.Chain.nil
    | cons c cs =>
      refine chain_adj_congr (c :: cs) b ?_ ?_ hc.2
      · intro x hx
        exact hn x (List.mem_cons_of_mem a hx)
      · intro x hx
        exact hp x (List.mem_cons_of_mem b hx)

/-- Splitting the final link off a chain. -/
theorem chain_snoc (R : Nat → Nat → Prop) :
    ∀ (l : List Nat) (a b : Nat),
      List.Chain R a (l ++ [b]) ↔
        List.Chain R a l ∧ R ((a :: l).getLast (List.cons_ne_nil a l)) b
  | [], a, b => by simp [List.chain_cons]
  | c :: cs, a, b => by
    rw [List.cons_append, List.chain_cons, List.chain_cons,
      chain_snoc R cs c b, List.getLast_cons (List.cons_ne_nil c cs)]
    tauto

end ChainTools

section RingBasic

/-- The last element of a duplicate-free list does not occur before the end. -/
theorem getLast_not_mem_dropLast {l : List Nat} (hl : l ≠ []) (hn : l.Nodup) :
    l.getLast hl ∉ l.dropLast := by
  intro hmem
  have hsplit : l.dropLast ++ [l.getLast hl] = l := List.dropLast_append_getLast hl
  rw [← hsplit, List.nodup_append] at hn
  exact hn.2.2 hmem (List.mem_singleton_self _)

/-- A ring is insensitive to heap changes outside its members' link fields. -/
theorem isRing_congr {s s' : Heap} {l : List Nat}
    (h : ∀ x ∈ l, (s'.node x).next = (s.node x).next ∧
      (s'.node x).prev = (s.node x).prev) :
    isRing s l → isRing s' l := by
  cases l with
  | nil => exact fun hr => hr.elim
  | cons a r =>
    rintro ⟨hnd, hc⟩
    refine ⟨hnd, chain_adj_congr (r ++ [a]) a ?_ ?_ hc⟩
    · intro x hx
      have : x ∈ a :: r := by
        have hd : (a :: (r ++ [a])).dropLast = a :: r := by
          rw [← List.cons_append, List.dropLast_concat]
        rw [hd] at hx
        exact hx
      exact (h x this).1
    · intro x hx
      have : x ∈ a :: r := by
        rcases List.mem_append.1 hx with h1 | h1
        · exact List.mem_cons_of_mem a h1
        · rw [List.mem_singleton.1 h1]; exact List.mem_cons_self a r
      exact (h x this).2

/-- A singleton list is a ring exactly when the node links to itself. -/
theorem isRing_singleton {s : Heap} {x : Nat} :
    isRing s [x] ↔ (s.node x).next = x ∧ (s.node x).prev = x := by
  constructor
  · rintro ⟨-, hc⟩
    rw [List.nil_append, List.chain_cons] at hc
    exact hc.1
  · intro h
    exact ⟨List.nodup_singleton x, by
      rw [List.nil_append, List.chain_cons]
      exact ⟨h, List.Chain.nil⟩⟩

/-- Decomposition of a ring with at least two members: the head links to the
second member, the interior is a plain chain, and the last member wraps back
to the head. -/
theorem isRing_cons_elim {s : Heap} {x h : Nat} {t : List Nat}
    (hr : isRing s (x :: h :: t)) :
    (s.node x).next = h ∧ (s.node h).prev = x ∧
    List.Chain (adj s) h t ∧
    (s.node ((h :: t).getLast (List.cons_ne_nil h t))).next = x ∧
    (s.node x).prev = (h :: t).getLast (List.cons_ne_nil h t) := by
  obtain ⟨-, hc⟩ := hr
  rw [List.cons_append, List.chain_cons] at hc
  obtain ⟨hxh, hc⟩ := hc
  rw [chain_snoc] at hc
  exact ⟨hxh.1, hxh.2, hc.1, hc.2.1, hc.2.2⟩

/-- Reassembly converse of `isRing_cons_elim`. -/
theorem isRing_cons_intro {s : Heap} {x h : Nat} {t : List Nat}
    (hnd : (x :: h :: t).Nodup)
    (h1 : (s.node x).next = h) (h2 : (s.node h).prev = x)
    (h3 : List.Chain (adj s) h t)
    (h4 : (s.node ((h :: t).getLast (List.cons_ne_nil h t))).next = x)
    (h5 : (s.node x).prev = (h :: t).getLast (List.cons_ne_nil h t)) :
    isRing s (x :: h :: t) := by
  refine ⟨hnd, ?_⟩
  rw [List.cons_append, List.chain_cons, chain_snoc]
  exact ⟨⟨h1, h2⟩, h3, h4, h5⟩

/-- In a ring of size at least two the head's successor is the second member
and is distinct from the head. -/
theorem isRing_next_head {s : Heap} {x h : Nat} {t : List Nat}
    (hr : isRing s (x :: h :: t)) : (s.node x).next = h ∧ h ≠ x := by
  refine ⟨(isRing_cons_elim hr).1, ?_⟩
  intro hcontra
  exact (List.nodup_cons.1 hr.1).1 (hcontra ▸ List.mem_cons_self h t)

/-- Characterisation of `unique` on a ring member: true exactly when the ring
is a singleton and the data pointer is non-null. -/
theorem unique_iff_ring {s : Heap} {i : Nat} {l : List Nat}
    (hr : isRing s (i :: l)) :
    s.unique i = true ↔ (l = [] ∧ (s.node i).data ≠ 0) := by
  unfold Heap.unique
  cases l with
  | nil =>
    have h := isRing_singleton.1 hr
    simp [h.1, h.2]
  | cons h t =>
    have hx := isRing_next_head hr
    simp only [Bool.and_eq_true, beq_iff_eq, bne_iff_ne, ne_eq]
    constructor
    · rintro ⟨⟨hn, -⟩, -⟩
      exact absurd (hx.1.symm.trans hn) hx.2
    · rintro ⟨hfalse, -⟩
      exact absurd hfalse (List.cons_ne_nil h t)

/-- Characterisation of the private `is_unique` on a ring member. -/
theorem is_unique_iff_ring {s : Heap} {i : Nat} {l : List Nat}
    (hr : isRing s (i :: l)) :
    s.is_unique i = true ↔ l = [] := by
  unfold Heap.is_unique
  cases l with
  | nil =>
    have h := isRing_singleton.1 hr
    simp [h.1, h.2]
  | cons h t =>
    have hx := isRing_next_head hr
    simp only [Bool.and_eq_true, beq_iff_eq]
    constructor
    · rintro ⟨hn, -⟩
      exact absurd (hx.1.symm.trans hn) hx.2
    · rintro hfalse
      exact absurd hfalse (List.cons_ne_nil h t)

end RingBasic

section InsertRemoveNodes

variable (s : Heap) (i oth x : Nat)

/-- No call to `insert` touches any `data` field. -/
theorem data_insert : ((s.insert i oth).node x).data = (s.node x).data := by
  unfold Heap.insert
  simp only [data_setNext, data_setPrev]

/-- No call to `remove` touches any `data` field. -/
theorem data_remove : ((s.remove i).node x).data = (s.node x).data := by
  unfold Heap.remove
  simp only [data_setNext, data_setPrev]

/-- Normal form for `insert`: the intermediate read of the anchor's `next`
resolves to its value in the starting heap, because the first statement only
writes a `prev` field. -/
theorem insert_eq :
    s.insert i oth =
      (((s.setPrev (s.node oth).next i).setNext i
        (s.node oth).next).setPrev i oth).setNext oth i := by
  have hnx : ((s.setPrev (s.node oth).next i).node oth).next = (s.node oth).next := by
    by_cases h : oth = (s.node oth).next
    · conv_lhs => rw [← h]
      simp
    · rw [node_setPrev_ne _ _ _ _ h]
  show (((s.setPrev (s.node oth).next i).setNext i
      ((s.setPrev (s.node oth).next i).node oth).next).setPrev i oth).setNext oth i =
    (((s.setPrev (s.node oth).next i).setNext i
      (s.node oth).next).setPrev i oth).setNext oth i
  rw [hnx]

/-- Normal form for `remove`: the intermediate reads of the removed node's
links resolve to their values in the starting heap. -/
theorem remove_eq :
    s.remove i =
      (((s.setPrev (s.node i).next (s.node i).prev).setNext
        (s.node i).prev (s.node i).next).setNext i i).setPrev i i := by
  have key : (s.setPrev (s.node i).next (s.node i).prev).node i = s.node i := by
    by_cases h : i = (s.node i).next
    · conv_lhs => rw [← h]
      rw [node_setPrev_self]
    · rw [node_setPrev_ne _ _ _ _ h]
  show (((s.setPrev (s.node i).next (s.node i).prev).setNext
      ((s.setPrev (s.node i).next (s.node i).prev).node i).prev
      ((s.setPrev (s.node i).next (s.node i).prev).node i).next).setNext i i).setPrev i i =
    (((s.setPrev (s.node i).next (s.node i).prev).setNext
      (s.node i).prev (s.node i).next).setNext i i).setPrev i i
  rw [key]

/-- Effect of `insert` on the inserted node itself. -/
theorem insert_node_self (h1 : i ≠ oth) (h2 : i ≠ (s.node oth).next) :
    (s.insert i oth).node i =
      { next := (s.node oth).next, prev := oth, data := (s.node i).data } := by
  rw [insert_eq]
  rw [node_setNext_ne _ _ _ _ h1, node_setPrev_self, node_setNext_self,
    node_setPrev_ne _ _ _ _ h2]

/-- Effect of `insert` on the `next` link of the anchor node. -/
theorem insert_node_oth_next :
    ((s.insert i oth).node oth).next = i := by
  rw [insert_eq]
  simp

/-- The anchor's `prev` link is untouched by `insert` when the anchor was not
its own successor (i.e. was not a singleton). -/
theorem insert_node_oth_prev (h1 : i ≠ oth) (h3 : oth ≠ (s.node oth).next) :
    ((s.insert i oth).node oth).prev = (s.node oth).prev := by
  rw [insert_eq]
  rw [node_setNext_self, node_setPrev_ne _ _ _ _ h1.symm,
    node_setNext_ne _ _ _ _ h1.symm, node_setPrev_ne _ _ _ _ h3]

/-- Effect of `insert` on the `prev` link of the anchor's old successor, when
the anchor was not a singleton. -/
theorem insert_node_nx_prev (h2 : i ≠ (s.node oth).next)
    (h3 : oth ≠ (s.node oth).next) :
    ((s.insert i oth).node ((s.node oth).next)).prev = i := by
  rw [insert_eq]
  rw [node_setNext_ne _ _ _ _ h3.symm, node_setPrev_ne _ _ _ _ h2.symm,
    node_setNext_ne _ _ _ _ h2.symm, node_setPrev_self]

/-- The `next` link of the anchor's old successor is untouched by `insert`. -/
theorem insert_node_nx_next (h2 : i ≠ (s.node oth).next)
    (h3 : oth ≠ (s.node oth).next) :
    ((s.insert i oth).node ((s.node oth).next)).next =
      (s.node ((s.node oth).next)).next := by
  rw [insert_eq]
  rw [node_setNext_ne _ _ _ _ h3.symm, node_setPrev_ne _ _ _ _ h2.symm,
    node_setNext_ne _ _ _ _ h2.symm, node_setPrev_self]

/-- Nodes other than the inserted one, the anchor and the anchor's old
successor are untouched by `insert`. -/
theorem insert_node_other (hx1 : x ≠ i) (hx2 : x ≠ oth)
    (hx3 : x ≠ (s.node oth).next) :
    (s.insert i oth).node x = s.node x := by
  rw [insert_eq]
  rw [node_setNext_ne _ _ _ _ hx2, node_setPrev_ne _ _ _ _ hx1,
    node_setNext_ne _ _ _ _ hx1, node_setPrev_ne _ _ _ _ hx3]

/-- Effect of `remove` on the removed node: it becomes a self-linked
singleton keeping its data. -/
theorem remove_node_self :
    (s.remove i).node i = { next := i, prev := i, data := (s.node i).data } := by
  rw [remove_eq]
  rw [node_setPrev_self, node_setNext_self]
  by_cases h1 : i = (s.node i).prev
  · by_cases h2 : i = (s.node i).next
    · conv in (s.setPrev (s.node i).next (s.node i).prev) => rw [← h2]
      rw [← h1]
      simp
    · rw [← h1, node_setNext_self, node_setPrev_ne _ _ _ _ h2]
  · rw [node_setNext_ne _ _ _ _ h1]
    by_cases h2 : i = (s.node i).next
    · conv in (s.setPrev (s.node i).next (s.node i).prev) => rw [← h2]
      simp
    · rw [node_setPrev_ne _ _ _ _ h2]

/-- Effect of `remove` on the `next` link of the removed node's predecessor
(when that predecessor is another node). -/
theorem remove_node_pi_next (hpi : (s.node i).prev ≠ i) :
    ((s.remove i).node ((s.node i).prev)).next = (s.node i).next := by
  rw [remove_eq]
  rw [node_setPrev_ne _ _ _ _ hpi, node_setNext_ne _ _ _ _ hpi,
    node_setNext_self]

/-- Effect of `remove` on the `prev` link of the removed node's successor
(when that successor is another node): it is rewired to the predecessor. -/
theorem remove_node_ni_prev (hni : (s.node i).next ≠ i) :
    ((s.remove i).node ((s.node i).next)).prev = (s.node i).prev := by
  rw [remove_eq]
  rw [node_setPrev_ne _ _ _ _ hni, node_setNext_ne _ _ _ _ hni]
  by_cases h : (s.node i).next = (s.node i).prev
  · rw [h, node_setNext_self, node_setPrev_self]
  · rw [node_setNext_ne _ _ _ _ h, node_setPrev_self]

/-- The `next` link of the removed node's successor is untouched by `remove`
when the ring had at least three members there (successor distinct from both
the removed node and its predecessor). -/
theorem remove_node_ni_next (hni : (s.node i).next ≠ i)
    (hnp : (s.node i).next ≠ (s.node i).prev) :
    ((s.remove i).node ((s.node i).next)).next =
      (s.node ((s.node i).next)).next := by
  rw [remove_eq]
  rw [node_setPrev_ne _ _ _ _ hni, node_setNext_ne _ _ _ _ hni,
    node_setNext_ne _ _ _ _ hnp, node_setPrev_self]

/-- The `prev` link of the removed node's predecessor is untouched by
`remove` when the predecessor is distinct from the removed node and from the
successor. -/
theorem remove_node_pi_prev (hpi : (s.node i).prev ≠ i)
    (hnp : (s.node i).prev ≠ (s.node i).next) :
    ((s.remove i).node ((s.node i).prev)).prev =
      (s.node ((s.node i).prev)).prev := by
  rw [remove_eq]
  rw [node_setPrev_ne _ _ _ _ hpi, node_setNext_ne _ _ _ _ hpi,
    node_setNext_self]
  show ((s.setPrev (s.node i).next (s.node i).prev).node ((s.node i).prev)).prev =
    (s.node ((s.node i).prev)).prev
  rw [node_setPrev_ne _ _ _ _ hnp]

/-- Nodes other than the removed one and its two old neighbours are untouched
by `remove`. -/
theorem remove_node_other (hx1 : x ≠ i) (hx2 : x ≠ (s.node i).next)
    (hx3 : x ≠ (s.node i).prev) :
    (s.remove i).node x = s.node x := by
  rw [remove_eq]
  rw [node_setPrev_ne _ _ _ _ hx1, node_setNext_ne _ _ _ _ hx1,
    node_setNext_ne _ _ _ _ hx3, node_setPrev_ne _ _ _ _ hx2]

end InsertRemoveNodes

section FieldUntouched

variable (s : Heap) (i oth x : Nat)

/-- The only `next` fields written by `insert` are those of the inserted node
and the anchor. -/
theorem insert_next_untouched (hx1 : x ≠ i) (hx2 : x ≠ oth) :
    ((s.insert i oth).node x).next = (s.node x).next := by
  rw [insert_eq]
  rw [node_setNext_ne _ _ _ _ hx2]
  by_cases h : x = (s.node oth).next
  · subst h
    rw [node_setPrev_ne _ _ _ _ hx1, node_setNext_ne _ _ _ _ hx1,
      node_setPrev_self]
  · rw [node_setPrev_ne _ _ _ _ hx1, node_setNext_ne _ _ _ _ hx1,
      node_setPrev_ne _ _ _ _ h]

/-- The only `prev` fields written by `insert` are those of the inserted node
and the anchor's old successor. -/
theorem insert_prev_untouched (hx1 : x ≠ i) (hx3 : x ≠ (s.node oth).next) :
    ((s.insert i oth).node x).prev = (s.node x).prev := by
  rw [insert_eq]
  by_cases h : x = oth
  · have h4 : ((((s.setPrev (s.node oth).next i).setNext i
        (s.node oth).next).setPrev i oth).node oth) = s.node oth := by
      rw [node_setPrev_ne _ _ _ _ (fun hc => hx1 (h.trans hc)),
        node_setNext_ne _ _ _ _ (fun hc => hx1 (h.trans hc)),
        node_setPrev_ne _ _ _ _ (fun hc => hx3 (h.trans hc))]
    rw [h, node_setNext_self, h4]
  · rw [node_setNext_ne _ _ _ _ h, node_setPrev_ne _ _ _ _ hx1,
      node_setNext_ne _ _ _ _ hx1, node_setPrev_ne _ _ _ _ hx3]

/-- The only `next` fields written by `remove` are those of the removed node
and its old predecessor. -/
theorem remove_next_untouched (hx1 : x ≠ i) (hx2 : x ≠ (s.node i).prev) :
    ((s.remove i).node x).next = (s.node x).next := by
  rw [remove_eq]
  rw [node_setPrev_ne _ _ _ _ hx1, node_setNext_ne _ _ _ _ hx1,
    node_setNext_ne _ _ _ _ hx2]
  by_cases h : x = (s.node i).next
  · subst h
    rw [node_setPrev_self]
  · rw [node_setPrev_ne _ _ _ _ h]

/-- The only `prev` fields written by `remove` are those of the removed node
and its old successor. -/
theorem remove_prev_untouched (hx1 : x ≠ i) (hx2 : x ≠ (s.node i).next) :
    ((s.remove i).node x).prev = (s.node x).prev := by
  rw [remove_eq]
  rw [node_setPrev_ne _ _ _ _ hx1, node_setNext_ne _ _ _ _ hx1]
  by_cases h : x = (s.node i).prev
  · have h4 : ((s.setPrev (s.node i).next (s.node i).prev).node ((s.node i).prev))
        = s.node ((s.node i).prev) := by
      rw [node_setPrev_ne _ _ _ _ (fun hc => hx2 (h.trans hc))]
    rw [h, node_setNext_self, h4]
  · rw [node_setNext_ne _ _ _ _ h, node_setPrev_ne _ _ _ _ hx2]

/-- When the anchor of `insert` is a singleton (its own successor) its `prev`
link is rewired to the inserted node. -/
theorem insert_node_oth_prev_self (h1 : i ≠ oth) (h3 : oth = (s.node oth).next) :
    ((s.insert i oth).node oth).prev = i := by
  rw [insert_eq]
  have h4 : ((((s.setPrev (s.node oth).next i).setNext i
      (s.node oth).next).setPrev i oth).node oth) =
      ((s.setPrev (s.node oth).next i).node oth) := by
    rw [node_setPrev_ne _ _ _ _ h1.symm, node_setNext_ne _ _ _ _ h1.symm]
  have h5 : ((s.setPrev (s.node oth).next i).node oth).prev = i := by
    conv_lhs => rw [← h3]
    rw [node_setPrev_self]
  rw [node_setNext_self, h4]
  exact h5

end FieldUntouched

section RingSurgery

/-- An element of the front part of a duplicate-free list differs from the
last element. -/
theorem mem_dropLast_ne_getLast {l : List Nat} (hl : l ≠ []) (hn : l.Nodup)
    {z : Nat} (hz : z ∈ l.dropLast) : z ≠ l.getLast hl := by
  intro hcontra
  exact getLast_not_mem_dropLast hl hn (hcontra ▸ hz)

/-- Splicing a fresh node `i` right after the head of a ring yields the ring
with `i` as the new second member, leaving the rest of the order unchanged
(source `super_linked_ptr::insert`). -/
theorem isRing_insert {s : Heap} {a : Nat} {r : List Nat} {i : Nat}
    (hr : isRing s (a :: r)) (hi : i ∉ a :: r) :
    isRing (s.insert i a) (a :: i :: r) := by
  have hia : i ≠ a := fun hc => hi (hc ▸ List.mem_cons_self a r)
  have hnd : (a :: r).Nodup := hr.1
  have hnd' : (a :: i :: r).Nodup := by
    rw [List.nodup_cons] at hnd ⊢
    refine ⟨?_, ?_⟩
    · intro hc
      rcases List.mem_cons.1 hc with h | h
      · exact hia h.symm
      · exact hnd.1 h
    · rw [List.nodup_cons]
      exact ⟨fun hc => hi (List.mem_cons_of_mem a hc), hnd.2⟩
  cases r with
  | nil =>
    have hs := isRing_singleton.1 hr
    have hnx : (s.node a).next = a := hs.1
    refine isRing_cons_intro hnd' ?_ ?_ List.Chain.nil ?_ ?_
    · exact insert_node_oth_next s i a
    · have := insert_node_self s i a hia (fun hc => hia (hc.trans hnx))
      rw [this]
    · show ((s.insert i a).node ((i :: ([] : List Nat)).getLast (List.cons_ne_nil i []))).next = a
      have hgl : ((i :: ([] : List Nat)).getLast (List.cons_ne_nil i [])) = i := rfl
      rw [hgl]
      have := insert_node_self s i a hia (fun hc => hia (hc.trans hnx))
      rw [this, hnx]
    · show ((s.insert i a).node a).prev = ((i :: ([] : List Nat)).getLast (List.cons_ne_nil i []))
      have hgl : ((i :: ([] : List Nat)).getLast (List.cons_ne_nil i [])) = i := rfl
      rw [hgl]
      exact insert_node_oth_prev_self s i a hia hnx.symm
  | cons h t =>
    obtain ⟨e1, e2, e3, e4, e5⟩ := isRing_cons_elim hr
    have hat : a ∉ h :: t := (List.nodup_cons.1 hnd).1
    have hit : i ∉ h :: t := fun hc => hi (List.mem_cons_of_mem a hc)
    have hih : i ≠ h := fun hc => hit (hc ▸ List.mem_cons_self h t)
    have hah : a ≠ h := fun hc => hat (hc ▸ List.mem_cons_self h t)
    have hanx : a ≠ (s.node a).next := by rw [e1]; exact hah
    have hinx : i ≠ (s.node a).next := by rw [e1]; exact hih
    have hndht : (h :: t).Nodup := (List.nodup_cons.1 hnd).2
    have hL := List.getLast_mem (List.cons_ne_nil h t)
    refine isRing_cons_intro hnd' (insert_node_oth_next s i a) ?_ ?_ ?_ ?_
    · have := insert_node_self s i a hia hinx
      rw [this]
    · rw [List.chain_cons]
      constructor
      · constructor
        · have := insert_node_self s i a hia hinx
          rw [this, e1]
        · have := insert_node_nx_prev s i a hinx hanx
          rw [e1] at this
          exact this
      · refine chain_adj_congr t h ?_ ?_ e3
        · intro z hz
          have hz' : z ∈ h :: t := List.dropLast_subset _ hz
          exact insert_next_untouched s i a z
            (fun hc => hit (hc ▸ hz')) (fun hc => hat (hc ▸ hz'))
        · intro z hz
          refine insert_prev_untouched s i a z
            (fun hc => hit (hc ▸ List.mem_cons_of_mem h hz)) ?_
          rw [e1]
          intro hc
          exact (List.nodup_cons.1 hndht).1 (hc ▸ hz)
    · have hgl : ((i :: h :: t).getLast (List.cons_ne_nil i (h :: t))) =
        ((h :: t).getLast (List.cons_ne_nil h t)) :=
        List.getLast_cons (List.cons_ne_nil h t)
      rw [hgl]
      rw [insert_next_untouched s i a _ (fun hc => hit (hc ▸ hL))
        (fun hc => hat (hc ▸ hL))]
      exact e4
    · have hgl : ((i :: h :: t).getLast (List.cons_ne_nil i (h :: t))) =
        ((h :: t).getLast (List.cons_ne_nil h t)) :=
        List.getLast_cons (List.cons_ne_nil h t)
      rw [hgl]
      rw [insert_prev_untouched s i a a hia.symm (e1 ▸ hah)]
      exact e5

/-- Removing a member from a ring of size at least two leaves the remaining
members as a ring in the same order (source `super_linked_ptr::remove`). -/
theorem isRing_remove {s : Heap} {i : Nat} {l : List Nat}
    (hr : isRing s (i :: l)) (hl : l ≠ []) :
    isRing (s.remove i) l := by
  cases l with
  | nil => exact absurd rfl hl
  | cons h t =>
    obtain ⟨e1, e2, e3, e4, e5⟩ := isRing_cons_elim hr
    have hnd : (i :: h :: t).Nodup := hr.1
    have hih : i ≠ h := fun hc => (List.nodup_cons.1 hnd).1 (hc ▸ List.mem_cons_self h t)
    have hndht : (h :: t).Nodup := (List.nodup_cons.1 hnd).2
    have hit : i ∉ h :: t := (List.nodup_cons.1 hnd).1
    have hL := List.getLast_mem (List.cons_ne_nil h t)
    have hLi : ((h :: t).getLast (List.cons_ne_nil h t)) ≠ i :=
      fun hc => hit (hc ▸ hL)
    refine ⟨hndht, ?_⟩
    rw [chain_snoc]
    refine ⟨?_, ?_, ?_⟩
    · refine chain_adj_congr t h ?_ ?_ e3
      · intro z hz
        have hz' : z ∈ h :: t := List.dropLast_subset _ hz
        refine remove_next_untouched s i z (fun hc => hit (hc ▸ hz')) ?_
        rw [e5]
        exact mem_dropLast_ne_getLast (List.cons_ne_nil h t) hndht hz
      · intro z hz
        refine remove_prev_untouched s i z
          (fun hc => hit (hc ▸ List.mem_cons_of_mem h hz)) ?_
        rw [e1]
        intro hc
        exact (List.nodup_cons.1 hndht).1 (hc ▸ hz)
    · have hpi : (s.node i).prev ≠ i := by rw [e5]; exact hLi
      have := remove_node_pi_next s i hpi
      rw [e5] at this
      rw [this, e1]
    · have hni : (s.node i).next ≠ i := by rw [e1]; exact fun hc => hih hc.symm
      have := remove_node_ni_prev s i hni
      rw [e1] at this
      rw [this, e5]

/-- The generic slot-transplant shape: if in heap `s'` node `y` carries the
links `x` had in ring `x :: h :: t` of heap `s`, the neighbours of `x` now
link to `y`, and all other members keep their links, then `y :: h :: t` is a
ring of `s'`.  (Used for move construction and both relinking branches of
`swap`.) -/
theorem isRing_subst {s s' : Heap} {x y h : Nat} {t : List Nat}
    (hr : isRing s (x :: h :: t)) (hy : y ∉ x :: h :: t)
    (hn_y : (s'.node y).next = h)
    (hp_y : (s'.node y).prev = (h :: t).getLast (List.cons_ne_nil h t))
    (hp_h : (s'.node h).prev = y)
    (hn_last : (s'.node ((h :: t).getLast (List.cons_ne_nil h t))).next = y)
    (hmid_p : ∀ z ∈ t, (s'.node z).prev = (s.node z).prev)
    (hmid_n : ∀ z ∈ h :: t, z ≠ (h :: t).getLast (List.cons_ne_nil h t) →
      (s'.node z).next = (s.node z).next) :
    isRing s' (y :: h :: t) := by
  obtain ⟨e1, e2, e3, e4, e5⟩ := isRing_cons_elim hr
  have hnd : (x :: h :: t).Nodup := hr.1
  have hndht : (h :: t).Nodup := (List.nodup_cons.1 hnd).2
  have hnd' : (y :: h :: t).Nodup := by
    rw [List.nodup_cons]
    exact ⟨hy ∘ List.mem_cons_of_mem x, hndht⟩
  refine isRing_cons_intro hnd' hn_y hp_h ?_ hn_last hp_y
  refine chain_adj_congr t h ?_ ?_ e3
  · intro z hz
    exact hmid_n z (List.dropLast_subset _ hz)
      (mem_dropLast_ne_getLast (List.cons_ne_nil h t) hndht hz)
  · exact hmid_p

end RingSurgery

section Orbit

/-- Every element of a chain is an iterate of the successor function applied
to the start. -/
theorem chain_mem_iterate {s : Heap} :
    ∀ (l : List Nat) (a : Nat), List.Chain (adj s) a l →
      ∀ x ∈ l, ∃ k, x = (nextFun s)^[k + 1] a
  | [], _, _, _, hx => absurd hx (List.not_mem_nil _)
  | b :: bs, a, hc, x, hx => by
    rw [List.chain_cons] at hc
    have hab : nextFun s a = b := hc.1.1
    rcases List.mem_cons.1 hx with h1 | h1
    · exact ⟨0, by simp [h1, hab]⟩
    · obtain ⟨k, hk⟩ := chain_mem_iterate bs b hc.2 x h1
      refine ⟨k + 1, ?_⟩
      rw [hk, ← hab, ← Function.iterate_succ_apply]

/-- In a chain that ends at `y`, the successor of every node but the final
one stays inside the chain. -/
theorem chain_next_mem {s : Heap} :
    ∀ (l : List Nat) (a y : Nat), List.Chain (adj s) a (l ++ [y]) →
      ∀ x ∈ a :: l, nextFun s x ∈ l ++ [y]
  | [], a, y, hc, x, hx => by
    rw [List.nil_append, List.chain_cons] at hc
    rw [List.mem_singleton.1 hx]
    rw [List.nil_append, List.mem_singleton]
    exact hc.1.1
  | b :: bs, a, y, hc, x, hx => by
    rw [List.cons_append, List.chain_cons] at hc
    rcases List.mem_cons.1 hx with h1 | h1
    · rw [h1]
      rw [List.cons_append, List.mem_cons]
      exact Or.inl hc.1.1
    · have := chain_next_mem bs b y hc.2 x h1
      rw [List.cons_append, List.mem_cons]
      exact Or.inr this

/-- A ring is closed under the successor function. -/
theorem ring_next_mem {s : Heap} {a : Nat} {r : List Nat}
    (hr : isRing s (a :: r)) : ∀ x ∈ a :: r, nextFun s x ∈ a :: r := by
  intro x hx
  have hc := hr.2
  have := chain_next_mem r a a hc x hx
  rcases List.mem_append.1 this with h1 | h1
  · exact List.mem_cons_of_mem a h1
  · rw [List.mem_singleton.1 h1]
    exact List.mem_cons_self a r

/-- A ring is closed under all iterates of the successor function. -/
theorem ring_iterate_mem {s : Heap} {a : Nat} {r : List Nat}
    (hr : isRing s (a :: r)) {c : Nat} (hc : c ∈ a :: r) :
    ∀ k, (nextFun s)^[k] c ∈ a :: r := by
  intro k
  induction k with
  | zero => exact hc
  | succ k ih =>
    rw [Function.iterate_succ_apply']
    exact ring_next_mem hr _ ih

/-- Every member of a ring is an iterate of the successor function from the
head. -/
theorem ring_mem_iterate_start {s : Heap} {a : Nat} {r : List Nat}
    (hr : isRing s (a :: r)) {x : Nat} (hx : x ∈ a :: r) :
    ∃ k, x = (nextFun s)^[k] a := by
  rcases List.mem_cons.1 hx with h1 | h1
  · exact ⟨0, h1⟩
  · obtain ⟨k, hk⟩ := chain_mem_iterate (r ++ [a]) a hr.2 x
      (List.mem_append.2 (Or.inl h1))
    exact ⟨k + 1, hk⟩

/-- Iterating the successor function around a ring eventually returns to the
head. -/
theorem ring_wrap_ex {s : Heap} {a : Nat} {r : List Nat}
    (hr : isRing s (a :: r)) :
    ∃ w, 0 < w ∧ (nextFun s)^[w] a = a := by
  obtain ⟨k, hk⟩ := chain_mem_iterate (r ++ [a]) a hr.2 a
    (List.mem_append.2 (Or.inr (List.mem_singleton_self a)))
  exact ⟨k + 1, Nat.succ_pos k, hk.symm⟩

/-- Every member of a ring lies on the successor orbit of every other
member. -/
theorem ring_mem_orbit {s : Heap} {a : Nat} {r : List Nat}
    (hr : isRing s (a :: r)) {c x : Nat} (hc : c ∈ a :: r) (hx : x ∈ a :: r) :
    ∃ k, x = (nextFun s)^[k] c := by
  obtain ⟨m, hm⟩ := ring_mem_iterate_start hr hc
  obtain ⟨m', hm'⟩ := ring_mem_iterate_start hr hx
  obtain ⟨w, hw0, hw⟩ := ring_wrap_ex hr
  have hmul : ∀ q, (nextFun s)^[q * w] a = a := by
    intro q
    induction q with
    | zero => rw [Nat.zero_mul]; rfl
    | succ q ih =>
      rw [Nat.succ_mul, Function.iterate_add_apply, hw, ih]
  have hle : m ≤ m' + m * w :=
    le_trans (Nat.le_mul_of_pos_right m hw0) (Nat.le_add_left _ _)
  refine ⟨m' + m * w - m, ?_⟩
  rw [hm, hm', ← Function.iterate_add_apply]
  have harith : m' + m * w - m + m = m' + m * w := Nat.sub_add_cancel hle
  rw [harith, Function.iterate_add_apply, hmul]

/-- Two rings that share a member have the same member set: the ring owning a
handle is unique. -/
theorem ring_members_unique {s : Heap} {l1 l2 : List Nat} {c : Nat}
    (h1 : isRing s l1) (h2 : isRing s l2) (hc1 : c ∈ l1) (hc2 : c ∈ l2) :
    ∀ x, x ∈ l1 ↔ x ∈ l2 := by
  cases l1 with
  | nil => exact absurd h1 (fun h => h)
  | cons a1 r1 =>
    cases l2 with
    | nil => exact absurd h2 (fun h => h)
    | cons a2 r2 =>
      intro x
      constructor
      · intro hx
        obtain ⟨k, hk⟩ := ring_mem_orbit h1 hc1 hx
        rw [hk]
        exact ring_iterate_mem h2 hc2 k
      · intro hx
        obtain ⟨k, hk⟩ := ring_mem_orbit h2 hc2 hx
        rw [hk]
        exact ring_iterate_mem h1 hc1 k

end Orbit

section OpEffects

variable (s : Heap) (i j v x oth : Nat)

/-- Writing a `prev` field never changes a `next` field. -/
theorem next_setPrev : ((s.setPrev i v).node j).next = (s.node j).next := by
  by_cases h : j = i
  · subst h; simp
  · simp [node_setPrev_ne, h]

/-- Writing a `next` field never changes a `prev` field. -/
theorem prev_setNext : ((s.setNext i v).node j).prev = (s.node j).prev := by
  by_cases h : j = i
  · subst h; simp
  · simp [node_setNext_ne, h]

theorem node_construct_self : (s.construct i v).node i = { next := i, prev := i, data := v } := by
  simp [Heap.construct]

theorem node_construct_ne (h : j ≠ i) : (s.construct i v).node j = s.node j := by
  simp [Heap.construct, node_writeNode_ne, h]

/-- A ring not containing the constructed id is untouched by `construct`. -/
theorem isRing_construct {l : List Nat} (hi : i ∉ l) :
    isRing s l → isRing (s.construct i v) l := by
  refine isRing_congr ?_
  intro x hx
  rw [node_construct_ne s i x v (fun hc => hi (hc ▸ hx))]
  exact ⟨rfl, rfl⟩

/-- Data writes never disturb a ring. -/
theorem isRing_setData {l : List Nat} :
    isRing s l → isRing (s.setData i v) l := by
  refine isRing_congr ?_
  intro x _
  exact ⟨next_setData s i x v, prev_setData s i x v⟩

theorem is_unique_setData : (s.setData i v).is_unique x = s.is_unique x := by
  unfold Heap.is_unique
  rw [next_setData, prev_setData]

/-- Branches of `delete_if_unique`. -/
theorem delete_if_unique_neg (h : ¬ s.unique i = true) :
    s.delete_if_unique i = s := if_neg h

theorem freed_delete_if_unique :
    (s.delete_if_unique i).freed =
      if s.unique i then s.freed ++ [(s.node i).data] else s.freed := by
  unfold Heap.delete_if_unique
  split <;> simp

theorem node_delete_if_unique_ne (h : j ≠ i) :
    (s.delete_if_unique i).node j = s.node j := by
  unfold Heap.delete_if_unique
  split
  · rw [node_setData_ne _ _ _ _ h]
  · rfl

theorem next_delete_if_unique :
    ((s.delete_if_unique i).node j).next = (s.node j).next := by
  unfold Heap.delete_if_unique
  split
  · rw [next_setData]
  · rfl

theorem prev_delete_if_unique :
    ((s.delete_if_unique i).node j).prev = (s.node j).prev := by
  unfold Heap.delete_if_unique
  split
  · rw [prev_setData]
  · rfl

theorem data_delete_if_unique_self :
    ((s.delete_if_unique i).node i).data =
      if s.unique i then 0 else (s.node i).data := by
  unfold Heap.delete_if_unique
  split <;> simp

/-- Link preservation lets `delete_if_unique` slide under any ring. -/
theorem isRing_delete_if_unique {l : List Nat} :
    isRing s l → isRing (s.delete_if_unique i) l := by
  refine isRing_congr ?_
  intro x _
  exact ⟨next_delete_if_unique s i x, prev_delete_if_unique s i x⟩

/-- Effect of the destructor on the `freed` log: the held address is logged
exactly when `unique()` held. -/
theorem freed_destruct :
    (s.destruct i).freed =
      if s.unique i then s.freed ++ [(s.node i).data] else s.freed := by
  unfold Heap.destruct
  rw [freed_remove, freed_delete_if_unique]

/-- Effect of the destructor on the destroyed node: it always ends
self-linked, with its data nulled exactly when `unique()` held. -/
theorem destruct_node_self :
    (s.destruct i).node i =
      { next := i, prev := i,
        data := if s.unique i then 0 else (s.node i).data } := by
  unfold Heap.destruct
  rw [remove_node_self, data_delete_if_unique_self]

theorem data_destruct_ne (h : j ≠ i) :
    ((s.destruct i).node j).data = (s.node j).data := by
  unfold Heap.destruct
  rw [data_remove]
  rw [node_delete_if_unique_ne _ _ _ h]

/-- Destroying one member of a ring of size at least two leaves the rest of
the ring intact. -/
theorem isRing_destruct_rest {s : Heap} {i : Nat} {l : List Nat}
    (hr : isRing s (i :: l)) (hl : l ≠ []) : isRing (s.destruct i) l := by
  unfold Heap.destruct
  exact isRing_remove (isRing_delete_if_unique s i hr) hl

/-- The head of a ring has its predecessor inside the ring. -/
theorem ring_prev_head {s : Heap} {i : Nat} {l : List Nat}
    (hr : isRing s (i :: l)) : (s.node i).prev ∈ i :: l := by
  cases l with
  | nil =>
    rw [(isRing_singleton.1 hr).2]
    exact List.mem_cons_self i []
  | cons h t =>
    rw [(isRing_cons_elim hr).2.2.2.2]
    exact List.mem_cons_of_mem i (List.getLast_mem (List.cons_ne_nil h t))

/-- The head of a ring has its successor inside the ring. -/
theorem ring_next_head_mem {s : Heap} {i : Nat} {l : List Nat}
    (hr : isRing s (i :: l)) : (s.node i).next ∈ i :: l :=
  ring_next_mem hr i (List.mem_cons_self i l)

/-- Destruction of a ring member leaves every node outside the ring
untouched. -/
theorem destruct_node_notin {s : Heap} {i : Nat} {l : List Nat}
    (hr : isRing s (i :: l)) {x : Nat} (hx : x ∉ i :: l) :
    (s.destruct i).node x = s.node x := by
  have hxi : x ≠ i := fun hc => hx (hc ▸ List.mem_cons_self i l)
  unfold Heap.destruct
  have hni : ((s.delete_if_unique i).node i).next = (s.node i).next :=
    next_delete_if_unique s i i
  have hpi : ((s.delete_if_unique i).node i).prev = (s.node i).prev :=
    prev_delete_if_unique s i i
  rw [remove_node_other _ _ _ hxi (by rw [hni]; exact fun hc => hx (hc ▸ ring_next_head_mem hr))
    (by rw [hpi]; exact fun hc => hx (hc ▸ ring_prev_head hr))]
  exact node_delete_if_unique_ne s i x hxi

end OpEffects

section CompositeOps

/-- Copy construction of `i` from ring member `x`: the new handle shares the
data, sits immediately after `x` in the ring, and no data field of any other
handle changes. -/
theorem copyConstruct_ring {s : Heap} {x : Nat} {l : List Nat} {i : Nat}
    (hr : isRing s (x :: l)) (hi : i ∉ x :: l) :
    isRing (s.copyConstruct i x) (x :: i :: l) ∧
    ((s.copyConstruct i x).node i).data = (s.node x).data ∧
    ∀ z, z ≠ i → ((s.copyConstruct i x).node z).data = (s.node z).data := by
  have hix : i ≠ x := fun hc => hi (hc ▸ List.mem_cons_self x l)
  unfold Heap.copyConstruct
  refine ⟨?_, ?_, ?_⟩
  · exact isRing_insert (isRing_construct s i ((s.node x).data) hi hr) hi
  · rw [data_insert, node_construct_self]
  · intro z hz
    rw [data_insert, node_construct_ne s i z _ hz]

/-- Move construction of `i` from ring member `oth`: `i` replaces `oth` in the
ring (same size), takes its data, and `oth` is left as an empty singleton. -/
theorem moveConstruct_spec {s : Heap} {oth : Nat} {l : List Nat} {i : Nat}
    (hr : isRing s (oth :: l)) (hi : i ∉ oth :: l) :
    isRing (s.moveConstruct i oth) (i :: l) ∧
    ((s.moveConstruct i oth).node i).data = (s.node oth).data ∧
    (s.moveConstruct i oth).node oth = { next := oth, prev := oth, data := 0 } ∧
    ∀ z, z ≠ i → z ≠ oth → ((s.moveConstruct i oth).node z).data = (s.node z).data := by
  have hio : i ≠ oth := fun hc => hi (hc ▸ List.mem_cons_self oth l)
  have hr1 : isRing ((s.construct i 0).insert i oth) (oth :: i :: l) :=
    isRing_insert (isRing_construct s i 0 hi hr) hi
  have hd1 : (((s.construct i 0).insert i oth).node oth).data = (s.node oth).data := by
    rw [data_insert, node_construct_ne s i oth 0 (fun hc => hio hc.symm)]
  have hr2 : isRing ((((s.construct i 0).insert i oth).setData i
      ((((s.construct i 0).insert i oth).node oth).data))) (oth :: i :: l) :=
    isRing_setData _ i _ hr1
  have hr3 : isRing (((((s.construct i 0).insert i oth).setData i
      ((((s.construct i 0).insert i oth).node oth).data))).remove oth) (i :: l) :=
    isRing_remove hr2 (List.cons_ne_nil i l)
  unfold Heap.moveConstruct
  refine ⟨isRing_setData _ oth 0 hr3, ?_, ?_, ?_⟩
  · rw [node_setData_ne _ _ _ _ hio, data_remove, node_setData_self]
    exact hd1
  · rw [node_setData_self, remove_node_self]
  · intro z hz1 hz2
    rw [node_setData_ne _ _ _ _ hz2, data_remove, node_setData_ne _ _ _ _ hz1,
      data_insert, node_construct_ne s i z 0 hz1]

end CompositeOps

section Claims

/-- A handle whose successor link does not point back at it is not
`unique()`. -/
theorem unique_false_of_next_ne {s : Heap} {i : Nat}
    (h : (s.node i).next ≠ i) : s.unique i = false := by
  unfold Heap.unique
  simp [h]

/-- A `unique()` handle in Bool form, from its three field conditions. -/
theorem unique_true_of_fields {s : Heap} {i : Nat}
    (h1 : (s.node i).next = i) (h2 : (s.node i).prev = i)
    (h3 : (s.node i).data ≠ 0) : s.unique i = true := by
  unfold Heap.unique
  simp [h1, h2, h3]

/-- C8.  Self copy-assignment (`a = a`) and self-swap (`a.swap(a)`) return the
heap unchanged: the guard `&other != this` skips the copy-assignment body, and
the guard `other.data == data` exits `swap` immediately, so neither data nor
links change and nothing is logged as freed. -/
theorem C8_self_ops (s : Heap) (i : Nat) :
    s.copyAssign i i = s ∧ s.swap i i = s := by
  constructor
  · simp [Heap.copyAssign]
  · simp [Heap.swap, Heap.swapGo]

/-- C9.  The comparison operators are computed purely from the raw data
addresses: equality and inequality are address identity, `<` is address
order, and all three are unchanged by any modification of the heap that
preserves the two data fields (in particular by any relinking of rings). -/
theorem C9_comparisons (s t : Heap) (i j : Nat) :
    (s.eqOp i j = true ↔ (s.node i).data = (s.node j).data) ∧
    (s.neOp i j = true ↔ (s.node i).data ≠ (s.node j).data) ∧
    (s.ltOp i j = true ↔ (s.node i).data < (s.node j).data) ∧
    ((s.node i).data = (t.node i).data → (s.node j).data = (t.node j).data →
      s.eqOp i j = t.eqOp i j ∧ s.neOp i j = t.neOp i j ∧
        s.ltOp i j = t.ltOp i j) := by
  refine ⟨?_, ?_, ?_, ?_⟩
  · simp [Heap.eqOp]
  · simp [Heap.neOp]
  · simp [Heap.ltOp]
  · intro h1 h2
    unfold Heap.eqOp Heap.neOp Heap.ltOp
    rw [h1, h2]
    exact ⟨rfl, rfl, rfl⟩

/-- C9 witness: the operators on the two-member ring over address 10 and the
singleton over address 20, compared against a heap with different links but
the same data. -/
theorem C9_comparisons_witness :
    (exABc.eqOp 1 2 = true ∧ exABc.eqOp 1 3 = false ∧
      exABc.ltOp 1 3 = true ∧ exABc.neOp 1 3 = true) ∧
    exABc.eqOp 1 2 = (exABc.setPrev 2 2).eqOp 1 2 ∧
    exABc.ltOp 1 3 = (exABc.setPrev 2 2).ltOp 1 3 := by
  refine ⟨by decide, ?_, ?_⟩
  · exact ((C9_comparisons exABc (exABc.setPrev 2 2) 1 2).2.2.2
      (by decide) (by decide)).1
  · exact ((C9_comparisons exABc (exABc.setPrev 2 2) 1 3).2.2.2
      (by decide) (by decide)).2.2

/-- C7.  `unique()` is true exactly on a singleton ring holding non-null
data; a handle freshly constructed from a non-null pointer is unique; and
right after a copy is made, both the original and the copy report
`unique() == false`. -/
theorem C7_unique (s : Heap) (i x p : Nat) (l : List Nat) :
    (isRing s (i :: l) →
      (s.unique i = true ↔ (l = [] ∧ (s.node i).data ≠ 0))) ∧
    (p ≠ 0 → (s.construct i p).unique i = true) ∧
    (isRing s (x :: l) → i ∉ x :: l →
      (s.copyConstruct i x).unique i = false ∧
      (s.copyConstruct i x).unique x = false) := by
  refine ⟨fun hr => unique_iff_ring hr, ?_, ?_⟩
  · intro hp
    refine unique_true_of_fields ?_ ?_ ?_ <;> rw [node_construct_self]
    exact hp
  · intro hr hi
    have hix : i ≠ x := fun hc => hi (hc ▸ List.mem_cons_self x l)
    have hr' := (copyConstruct_ring hr hi).1
    constructor
    · refine unique_false_of_next_ne ?_
      unfold Heap.copyConstruct
      have hinx : i ≠ ((s.construct i ((s.node x).data)).node x).next := by
        rw [node_construct_ne s i x _ hix.symm]
        exact fun hc => hi (hc ▸ ring_next_head_mem hr)
      rw [insert_node_self _ i x hix hinx, node_construct_ne s i x _ hix.symm]
      exact fun hc => hi (hc ▸ ring_next_head_mem hr)
    · refine unique_false_of_next_ne ?_
      rw [(isRing_next_head hr').1]
      exact hix

/-- C7 witness: handle 1 fresh over address 10 is unique; after copying it to
handle 3, neither 1 nor 3 is unique; and on the ring `[1, 2]` uniqueness of 1
fails because the ring is not a singleton. -/
theorem C7_unique_witness :
    (base.construct 1 10).unique 1 = true ∧
    (exAB.copyConstruct 3 1).unique 3 = false ∧
    (exAB.copyConstruct 3 1).unique 1 = false ∧
    (exAB.unique 1 = true ↔ (([2] : List Nat) = [] ∧ (exAB.node 1).data ≠ 0)) := by
  refine ⟨?_, ?_, ?_, ?_⟩
  · exact (C7_unique base 1 0 10 []).2.1 (by decide)
  · exact ((C7_unique exAB 3 1 5 [2]).2.2 (by decide) (by decide)).1
  · exact ((C7_unique exAB 3 1 5 [2]).2.2 (by decide) (by decide)).2
  · exact (C7_unique exAB 1 9 5 [2]).1 (by decide)

/-- C6.  Copy construction (same-typed or converting, which share one model
since addresses are erased) makes the new handle hold the source's data,
splices it into the ring immediately after the source, grows that ring by
exactly one member, and changes no other handle's data. -/
theorem C6_copy_construct (s : Heap) (x i : Nat) (l : List Nat)
    (hr : isRing s (x :: l)) (hi : i ∉ x :: l) :
    isRing (s.copyConstruct i x) (x :: i :: l) ∧
    ((s.copyConstruct i x).node i).data = (s.node x).data ∧
    (∀ z, z ≠ i → ((s.copyConstruct i x).node z).data = (s.node z).data) ∧
    (x :: i :: l).length = (x :: l).length + 1 := by
  obtain ⟨h1, h2, h3⟩ := copyConstruct_ring hr hi
  exact ⟨h1, h2, h3, by simp⟩

/-- C6 witness: copying handle 1 of the ring `[1, 2]` into fresh handle 3
yields the ring `[1, 3, 2]` with 3 placed immediately after 1, sharing
address 10. -/
theorem C6_copy_construct_witness :
    isRing (exAB.copyConstruct 3 1) [1, 3, 2] ∧
    ((exAB.copyConstruct 3 1).node 3).data = (exAB.node 1).data ∧
    ((exAB.copyConstruct 3 1).node 2).data = (exAB.node 2).data := by
  obtain ⟨h1, h2, h3, -⟩ :=
    C6_copy_construct exAB 1 3 [2] (by decide) (by decide)
  exact ⟨h1, h2, h3 2 (by decide)⟩

/-- C5.  `reset(ptr)` logs a free exactly when the handle was the sole member
of its ring and held non-null data; the handle always ends as a singleton
holding `ptr`; and when other ring members existed they stay a valid ring
with their data untouched. -/
theorem C5_reset (s : Heap) (i p : Nat) (l : List Nat)
    (hr : isRing s (i :: l)) :
    ((s.reset i p).freed =
      if l = [] ∧ (s.node i).data ≠ 0 then s.freed ++ [(s.node i).data]
      else s.freed) ∧
    (s.reset i p).node i = { next := i, prev := i, data := p } ∧
    (l ≠ [] → isRing (s.reset i p) l ∧
      ∀ z ∈ l, ((s.reset i p).node z).data = (s.node z).data) := by
  have hiff := unique_iff_ring hr
  have hres : s.reset i p = (s.destruct i).setData i p := rfl
  refine ⟨?_, ?_, ?_⟩
  · rw [hres, freed_setData, freed_destruct]
    by_cases hu : s.unique i = true
    · rw [if_pos hu, if_pos (hiff.1 hu)]
    · rw [if_neg hu, if_neg (fun hP => hu (hiff.2 hP))]
  · rw [hres, node_setData_self, destruct_node_self]
  · intro hl
    constructor
    · rw [hres]
      exact isRing_setData _ i p (isRing_destruct_rest hr hl)
    · intro z hz
      have hzi : z ≠ i := fun hc => (List.nodup_cons.1 hr.1).1 (hc ▸ hz)
      rw [hres, node_setData_ne _ _ _ _ hzi, data_destruct_ne _ _ _ hzi]

/-- C5 witness: resetting handle 1 of the ring `[1, 2]` to address 30 frees
nothing (handle 2 still owns address 10), leaves `[2]` a valid singleton ring
still holding 10, and makes handle 1 a fresh singleton on 30; resetting the
now-sole owner 2 then frees 10. -/
theorem C5_reset_witness :
    (exAB.reset 1 30).freed = [] ∧
    (exAB.reset 1 30).node 1 = { next := 1, prev := 1, data := 30 } ∧
    isRing (exAB.reset 1 30) [2] ∧
    ((exAB.reset 1 30).node 2).data = 10 ∧
    ((exAB.reset 1 30).reset 2 0).freed = [10] := by
  obtain ⟨h1, h2, h3⟩ := C5_reset exAB 1 30 [2] (by decide)
  refine ⟨?_, h2, (h3 (by decide)).1, ?_, ?_⟩
  · rw [h1]; decide
  · rw [(h3 (by decide)).2 2 (List.mem_singleton_self 2)]; decide
  · obtain ⟨g1, -, -⟩ :=
      C5_reset (exAB.reset 1 30) 2 0 [] (by decide)
    rw [g1]
    decide

/-- C10.  Move-assignment has no self-assignment guard: self-move-assigning a
handle that uniquely owns a non-null object frees that object (logging its
address exactly once) and leaves the handle an empty singleton with null
data, whose boolean conversion is false. -/
theorem C10_self_move (s : Heap) (i p : Nat)
    (h1 : (s.node i).next = i) (h2 : (s.node i).prev = i)
    (h3 : (s.node i).data = p) (hp : p ≠ 0) :
    (s.moveAssign i i).freed = s.freed ++ [p] ∧
    (s.moveAssign i i).node i = { next := i, prev := i, data := 0 } ∧
    (s.moveAssign i i).boolOp i = false := by
  have hu : s.unique i = true := unique_true_of_fields h1 h2 (h3 ▸ hp)
  have hDf : (s.destruct i).freed = s.freed ++ [p] := by
    rw [freed_destruct, if_pos hu, h3]
  have hDn : (s.destruct i).node i = { next := i, prev := i, data := 0 } := by
    rw [destruct_node_self, if_pos hu]
  have hCn : ((s.destruct i).copyConstruct i i).node i =
      { next := i, prev := i, data := 0 } := by
    unfold Heap.copyConstruct
    rw [hDn]
    rw [insert_eq]
    rw [node_construct_self]
    simp [node_construct_self]
  have hCf : ((s.destruct i).copyConstruct i i).freed = s.freed ++ [p] := by
    unfold Heap.copyConstruct
    rw [freed_insert, freed_construct, hDf]
  have hmv : s.moveAssign i i =
      (((s.destruct i).copyConstruct i i).remove i).setData i 0 := rfl
  have hRn : (((s.destruct i).copyConstruct i i).remove i).node i =
      { next := i, prev := i, data := 0 } := by
    rw [remove_node_self, hCn]
  refine ⟨?_, ?_, ?_⟩
  · rw [hmv, freed_setData, freed_remove, hCf]
  · rw [hmv, node_setData_self, hRn]
  · unfold Heap.boolOp
    rw [hmv, node_setData_self, hRn]
    simp

/-- C10 witness: self-move-assigning the sole owner (handle 1 of address 10)
frees 10 and empties the handle. -/
theorem C10_self_move_witness :
    (exA.moveAssign 1 1).freed = [10] ∧
    (exA.moveAssign 1 1).node 1 = { next := 1, prev := 1, data := 0 } ∧
    (exA.moveAssign 1 1).boolOp 1 = false := by
  obtain ⟨h1, h2, h3⟩ :=
    C10_self_move exA 1 10 (by decide) (by decide) (by decide) (by decide)
  exact ⟨by rw [h1]; decide, h2, h3⟩

/-- A ring disjoint from the destroyed handle's ring is untouched by the
destructor. -/
theorem isRing_destruct_disjoint {s : Heap} {i : Nat} {l1 l2 : List Nat}
    (hr1 : isRing s (i :: l1)) (hl2 : isRing s l2)
    (hd : ∀ x ∈ l2, x ∉ i :: l1) : isRing (s.destruct i) l2 := by
  refine isRing_congr ?_ hl2
  intro x hx
  rw [destruct_node_notin hr1 (hd x hx)]
  exact ⟨rfl, rfl⟩

/-- C4 (amended).  After move construction, and after move assignment from a
distinct handle whose ring is disjoint from the target's, the source handle
is an empty singleton (null data, boolean false, singleton ring) and the
target has replaced it in its ring, holding the source's original data; the
ring size is unchanged.  The disjointness restriction on move assignment is
necessary: when source and target are distinct members of one ring, the
target leaves its ring, rejoins next to the source, and the source then
detaches, so the object's owner count drops by one (see the counterexample
below for the two-member case). -/
theorem C4_move (s : Heap) (i j : Nat) (l l1 l2 : List Nat) :
    (isRing s (j :: l) → i ∉ j :: l →
      ((s.moveConstruct i j).node i).data = (s.node j).data ∧
      (s.moveConstruct i j).node j = { next := j, prev := j, data := 0 } ∧
      (s.moveConstruct i j).boolOp j = false ∧
      isRing (s.moveConstruct i j) [j] ∧
      isRing (s.moveConstruct i j) (i :: l) ∧
      (i :: l).length = (j :: l).length ∧
      (s.moveConstruct i j).freed = s.freed) ∧
    (isRing s (i :: l1) → isRing s (j :: l2) →
      (∀ x ∈ i :: l1, x ∉ j :: l2) →
      ((s.moveAssign i j).node i).data = (s.node j).data ∧
      (s.moveAssign i j).node j = { next := j, prev := j, data := 0 } ∧
      (s.moveAssign i j).boolOp j = false ∧
      isRing (s.moveAssign i j) [j] ∧
      isRing (s.moveAssign i j) (i :: l2) ∧
      (i :: l2).length = (j :: l2).length) := by
  constructor
  · intro hr hi
    obtain ⟨m1, m2, m3, m4⟩ := moveConstruct_spec hr hi
    refine ⟨m2, m3, ?_, ?_, m1, by simp, rfl⟩
    · unfold Heap.boolOp
      rw [m3]
      simp
    · refine isRing_singleton.2 ?_
      rw [m3]
      exact ⟨rfl, rfl⟩
  · intro hr1 hr2 hd
    have hij : i ≠ j := fun hc =>
      hd i (List.mem_cons_self i l1) (hc ▸ List.mem_cons_self j l2)
    have hjn : j ∉ i :: l1 := fun hc =>
      hd j hc (List.mem_cons_self j l2)
    have hin : i ∉ j :: l2 := hd i (List.mem_cons_self i l1)
    have hr2' : isRing (s.destruct i) (j :: l2) :=
      isRing_destruct_disjoint hr1 hr2 (fun x hx hc => hd x hc hx)
    have hjdat : ((s.destruct i).node j).data = (s.node j).data := by
      rw [destruct_node_notin hr1 hjn]
    obtain ⟨c1, c2, c3⟩ := copyConstruct_ring hr2' hin
    have hmv : s.moveAssign i j =
        (((s.destruct i).copyConstruct i j).remove j).setData j 0 := rfl
    have hrest : isRing ((((s.destruct i).copyConstruct i j).remove j).setData j 0)
        (i :: l2) :=
      isRing_setData _ j 0 (isRing_remove c1 (List.cons_ne_nil i l2))
    have hjn2 : (((s.destruct i).copyConstruct i j).remove j).node j =
        { next := j, prev := j,
          data := (((s.destruct i).copyConstruct i j).node j).data } :=
      remove_node_self _ j
    refine ⟨?_, ?_, ?_, ?_, by rw [hmv]; exact hrest, by simp⟩
    · rw [hmv, node_setData_ne _ _ _ _ hij, data_remove, c2, hjdat]
    · rw [hmv, node_setData_self, hjn2]
    · unfold Heap.boolOp
      rw [hmv, node_setData_self, hjn2]
      simp
    · refine isRing_singleton.2 ?_
      rw [hmv, node_setData_self, hjn2]
      exact ⟨rfl, rfl⟩

/-- C4 witness: moving handle 1 (ring `[1, 2]` on address 10) into fresh
handle 5, and move-assigning handle 3 (ring `[3, 4]` on address 20) into
handle 1 of the disjoint ring `[1, 2]`. -/
theorem C4_move_witness :
    (((exAB.moveConstruct 5 1).node 5).data = 10 ∧
      isRing (exAB.moveConstruct 5 1) [5, 2] ∧
      (exAB.moveConstruct 5 1).boolOp 1 = false) ∧
    (((exABcd.moveAssign 1 3).node 1).data = 20 ∧
      isRing (exABcd.moveAssign 1 3) [1, 4] ∧
      isRing (exABcd.moveAssign 1 3) [3] ∧
      (exABcd.moveAssign 1 3).boolOp 3 = false) := by
  constructor
  · obtain ⟨m1, -, m3, -, m5, -, -⟩ :=
      (C4_move exAB 5 1 [2] [] []).1 (by decide) (by decide)
    refine ⟨by rw [m1]; decide, m5, m3⟩
  · obtain ⟨m1, -, m3, m4, m5, -⟩ :=
      (C4_move exABcd 1 3 [] [2] [4]).2 (by decide) (by decide) (by decide)
    exact ⟨by rw [m1]; decide, m5, m4, m3⟩

/-- C4 counterexample.  Move-assignment between two distinct handles of one
ring does not keep the owner count of the object: on the two-member ring
`[1, 2]` over address 10 (both handles non-unique, i.e. two live owners),
`moveAssign 1 2` — the model of `a = std::move(b)` with `a`, `b` co-owners —
leaves handle 1 the sole owner (`unique()` true, singleton ring `[1]`) and
handle 2 empty, so the live-owner count for address 10 dropped from two to
one while nothing was freed. -/
theorem C4_move_counterexample :
    exAB.unique 1 = false ∧ exAB.unique 2 = false ∧
    (exAB.node 1).data = 10 ∧ (exAB.node 2).data = 10 ∧
    isRing exAB [1, 2] ∧
    ((exAB.moveAssign 1 2).node 1).data = 10 ∧
    (exAB.moveAssign 1 2).node 2 = { next := 2, prev := 2, data := 0 } ∧
    (exAB.moveAssign 1 2).unique 1 = true ∧
    isRing (exAB.moveAssign 1 2) [1] ∧
    (exAB.moveAssign 1 2).freed = [] := by decide

/-- Appending one element changes a list. -/
theorem freed_append_ne (f : List Nat) (d : Nat) : f ≠ f ++ [d] := by
  intro h
  have := congrArg List.length h
  simp at this

/-- C1.  Ownership is a structural property of rings: (a) the ring through a
given handle is unique — any two rings sharing a member have the same member
set; (b) destroying a ring member logs a free of its held address exactly
when it was the last member and held non-null data, and otherwise logs
nothing, with the surviving members (if any) left a valid ring with their
data intact; (c) `reset` frees under exactly the same condition; (d) a handle
holding null never triggers a free, under destruction or reset. -/
theorem C1_ownership (s : Heap) (i c p : Nat) (l l1 l2 : List Nat) :
    (isRing s l1 → isRing s l2 → c ∈ l1 → c ∈ l2 →
      ∀ x, (x ∈ l1 ↔ x ∈ l2)) ∧
    (isRing s (i :: l) →
      ((s.destruct i).freed = s.freed ++ [(s.node i).data] ↔
        (l = [] ∧ (s.node i).data ≠ 0)) ∧
      (¬ (l = [] ∧ (s.node i).data ≠ 0) → (s.destruct i).freed = s.freed) ∧
      ((s.reset i p).freed = s.freed ++ [(s.node i).data] ↔
        (l = [] ∧ (s.node i).data ≠ 0)) ∧
      (l ≠ [] → (s.destruct i).freed = s.freed ∧
        isRing (s.destruct i) l ∧
        ∀ z ∈ l, ((s.destruct i).node z).data = (s.node z).data)) ∧
    ((s.node i).data = 0 →
      (s.destruct i).freed = s.freed ∧ (s.reset i p).freed = s.freed) := by
  have hfd : (s.destruct i).freed =
      if s.unique i then s.freed ++ [(s.node i).data] else s.freed :=
    freed_destruct s i
  have hfr : (s.reset i p).freed =
      if s.unique i then s.freed ++ [(s.node i).data] else s.freed := by
    have : s.reset i p = (s.destruct i).setData i p := rfl
    rw [this, freed_setData, hfd]
  refine ⟨?_, ?_, ?_⟩
  · exact fun h1 h2 hc1 hc2 => ring_members_unique h1 h2 hc1 hc2
  · intro hr
    have hiff := unique_iff_ring hr
    have hcond : ∀ (f : List Nat),
        (f = if s.unique i then s.freed ++ [(s.node i).data] else s.freed) →
        (f = s.freed ++ [(s.node i).data] ↔ (l = [] ∧ (s.node i).data ≠ 0)) := by
      intro f hf
      by_cases hu : s.unique i = true
      · rw [hf, if_pos hu]
        exact ⟨fun _ => hiff.1 hu, fun _ => rfl⟩
      · rw [hf, if_neg hu]
        constructor
        · intro hcontra
          exact absurd hcontra (freed_append_ne _ _)
        · intro hP
          exact absurd (hiff.2 hP) hu
    refine ⟨hcond _ hfd, ?_, hcond _ hfr, ?_⟩
    · intro hP
      rw [hfd, if_neg (fun hu => hP (hiff.1 hu))]
    · intro hl
      refine ⟨?_, isRing_destruct_rest hr hl, ?_⟩
      · rw [hfd, if_neg (fun hu => hl (hiff.1 hu).1)]
      · intro z hz
        exact data_destruct_ne s i z (fun hc => (List.nodup_cons.1 hr.1).1 (hc ▸ hz))
  · intro h0
    have hu : ¬ s.unique i = true := by
      unfold Heap.unique
      simp [h0]
    exact ⟨by rw [hfd, if_neg hu], by rw [hfr, if_neg hu]⟩

/-- C1 witness: the ring through handle 1 listed as `[1, 2]` or through
handle 2 as `[2, 1]` has the same members; destroying handle 1 of the
two-member ring frees nothing and leaves `[2]` intact with its data, while
destroying the sole owner of address 10 frees exactly `[10]`; destroying a
null singleton (id 9) frees nothing. -/
theorem C1_ownership_witness :
    (2 ∈ ([1, 2] : List Nat) ↔ 2 ∈ ([2, 1] : List Nat)) ∧
    (exA.destruct 1).freed = exA.freed ++ [(exA.node 1).data] ∧
    (exAB.destruct 1).freed = exAB.freed ∧
    isRing (exAB.destruct 1) [2] ∧
    ((exAB.destruct 1).node 2).data = 10 ∧
    (base.destruct 9).freed = base.freed := by
  refine ⟨?_, ?_, ?_, ?_, ?_, ?_⟩
  · exact (C1_ownership exAB 0 1 0 [] [1, 2] [2, 1]).1
      (by decide) (by decide) (by decide) (by decide) 2
  · exact ((C1_ownership exA 1 0 0 [] [] []).2.1 (by decide)).1.2 (by decide)
  · exact (((C1_ownership exAB 1 0 0 [2] [] []).2.1 (by decide)).2.2.2
      (by decide)).1
  · exact (((C1_ownership exAB 1 0 0 [2] [] []).2.1 (by decide)).2.2.2
      (by decide)).2.1
  · have := (((C1_ownership exAB 1 0 0 [2] [] []).2.1 (by decide)).2.2.2
      (by decide)).2.2 2 (List.mem_singleton_self 2)
    rw [this]
    decide
  · exact ((C1_ownership base 9 0 0 [] [] []).2.2 (by decide)).1

/-- Every node of a chain (including the start) is adjacent to its own
successor link. -/
theorem chain_adj_of_mem {s : Heap} :
    ∀ (l : List Nat) (a y : Nat), List.Chain (adj s) a (l ++ [y]) →
      ∀ x ∈ a :: l, adj s x ((s.node x).next)
  | [], a, y, hc, x, hx => by
    rw [List.nil_append, List.chain_cons] at hc
    rw [List.mem_singleton.1 hx]
    have h := hc.1
    rwa [← h.1] at h
  | b :: bs, a, y, hc, x, hx => by
    rw [List.cons_append, List.chain_cons] at hc
    rcases List.mem_cons.1 hx with h1 | h1
    · rw [h1]
      have h := hc.1
      rwa [← h.1] at h

    · exact chain_adj_of_mem bs b y hc.2 x h1

/-- Every element of a chain is the successor of its own predecessor link. -/
theorem chain_next_prev_of_mem {s : Heap} :
    ∀ (l : List Nat) (a : Nat), List.Chain (adj s) a l →
      ∀ x ∈ l, (s.node ((s.node x).prev)).next = x
  | [], _, _, x, hx => absurd hx (List.not_mem_nil x)
  | b :: bs, a, hc, x, hx => by
    rw [List.chain_cons] at hc
    rcases List.mem_cons.1 hx with h1 | h1
    · rw [h1, hc.1.2, hc.1.1]
    · exact chain_next_prev_of_mem bs b hc.2 x h1

/-- In a ring, following `next` then `prev` returns to the member. -/
theorem ring_prev_next {s : Heap} {a : Nat} {r : List Nat}
    (hr : isRing s (a :: r)) {x : Nat} (hx : x ∈ a :: r) :
    (s.node ((s.node x).next)).prev = x :=
  (chain_adj_of_mem r a a hr.2 x hx).2

/-- In a ring, following `prev` then `next` returns to the member. -/
theorem ring_next_prev {s : Heap} {a : Nat} {r : List Nat}
    (hr : isRing s (a :: r)) {x : Nat} (hx : x ∈ a :: r) :
    (s.node ((s.node x).prev)).next = x := by
  have hx' : x ∈ r ++ [a] := by
    rcases List.mem_cons.1 hx with h1 | h1
    · exact List.mem_append.2 (Or.inr (h1 ▸ List.mem_singleton_self x))
    · exact List.mem_append.2 (Or.inl h1)
  exact chain_next_prev_of_mem (r ++ [a]) a hr.2 x hx'

/-- Distinct members of one ring have distinct successor links. -/
theorem ring_next_injective {s : Heap} {a : Nat} {r : List Nat}
    (hr : isRing s (a :: r)) {x y : Nat} (hx : x ∈ a :: r) (hy : y ∈ a :: r)
    (hxy : x ≠ y) : (s.node x).next ≠ (s.node y).next := by
  intro hc
  exact hxy ((ring_prev_next hr hx).symm.trans (by rw [hc, ring_prev_next hr hy]))

/-- Distinct members of one ring have distinct predecessor links. -/
theorem ring_prev_injective {s : Heap} {a : Nat} {r : List Nat}
    (hr : isRing s (a :: r)) {x y : Nat} (hx : x ∈ a :: r) (hy : y ∈ a :: r)
    (hxy : x ≠ y) : (s.node x).prev ≠ (s.node y).prev := by
  intro hc
  exact hxy ((ring_next_prev hr hx).symm.trans (by rw [hc, ring_next_prev hr hy]))

/-- Nodes other than the new handle, the anchor and the anchor's successor are
untouched by `copyConstruct`. -/
theorem copyConstruct_node_other {s : Heap} {i oth x : Nat} (hio : i ≠ oth)
    (hx1 : x ≠ i) (hx2 : x ≠ oth) (hx3 : x ≠ (s.node oth).next) :
    (s.copyConstruct i oth).node x = s.node x := by
  unfold Heap.copyConstruct
  have h : ((s.construct i ((s.node oth).data)).node oth).next = (s.node oth).next := by
    rw [node_construct_ne s i oth _ hio.symm]
  rw [insert_node_other _ i oth x hx1 hx2 (by rw [h]; exact hx3),
    node_construct_ne s i x _ hx1]

/-- C3.  The converting assignment is a no-op when `other` is the very handle
being assigned (self-assignment); for handles of disjoint rings the guard
passes and the operator is exactly destroy-then-copy-construct, freeing the
old object exactly when the destination was its sole owner and leaving the
destination sharing `other`'s ring and data, with the destination's old ring
siblings intact (no leak); and for two distinct handles of one ring nothing
is freed (no double free). -/
theorem C3_conv_assign (s : Heap) (i j : Nat) (l1 l2 : List Nat) :
    (s.convAssign i i = s) ∧
    (isRing s (i :: l1) → isRing s (j :: l2) →
      (∀ x ∈ i :: l1, x ∉ j :: l2) →
      (s.convAssign i j = (s.destruct i).copyConstruct i j ∧
        ((s.convAssign i j).node i).data = (s.node j).data ∧
        isRing (s.convAssign i j) (j :: i :: l2) ∧
        ((s.convAssign i j).freed =
          if l1 = [] ∧ (s.node i).data ≠ 0 then s.freed ++ [(s.node i).data]
          else s.freed) ∧
        (l1 ≠ [] → isRing (s.convAssign i j) l1 ∧
          ∀ z ∈ l1, ((s.convAssign i j).node z).data = (s.node z).data))) ∧
    (isRing s (i :: l1) → j ∈ l1 →
      (s.convAssign i j).freed = s.freed ∧
      ((s.convAssign i j).node i).data = (s.node j).data) := by
  refine ⟨by simp [Heap.convAssign], ?_, ?_⟩
  · intro hr1 hr2 hd
    have hij : i ≠ j := fun hc =>
      hd i (List.mem_cons_self i l1) (hc ▸ List.mem_cons_self j l2)
    have hjn : j ∉ i :: l1 := fun hc => hd j hc (List.mem_cons_self j l2)
    have hin : i ∉ j :: l2 := hd i (List.mem_cons_self i l1)
    have hguard : (s.node i).next ≠ (s.node j).next ∧
        (s.node i).prev ≠ (s.node j).prev := by
      constructor
      · intro hc
        exact hd _ (ring_next_head_mem hr1) (hc ▸ ring_next_head_mem hr2)
      · intro hc
        exact hd _ (ring_prev_head hr1) (hc ▸ ring_prev_head hr2)
    have heq : s.convAssign i j = (s.destruct i).copyConstruct i j := by
      unfold Heap.convAssign
      rw [if_pos hguard]
    have hr2' : isRing (s.destruct i) (j :: l2) :=
      isRing_destruct_disjoint hr1 hr2 (fun x hx hc => hd x hc hx)
    obtain ⟨c1, c2, c3⟩ := copyConstruct_ring hr2' hin
    have hiff := unique_iff_ring hr1
    refine ⟨heq, ?_, ?_, ?_, ?_⟩
    · rw [heq, c2, destruct_node_notin hr1 hjn]
    · rw [heq]; exact c1
    · rw [heq]
      have : ((s.destruct i).copyConstruct i j).freed = (s.destruct i).freed := rfl
      rw [this, freed_destruct]
      by_cases hu : s.unique i = true
      · rw [if_pos hu, if_pos (hiff.1 hu)]
      · rw [if_neg hu, if_neg (fun hP => hu (hiff.2 hP))]
    · intro hl
      have hrest : isRing (s.destruct i) l1 := isRing_destruct_rest hr1 hl
      have hnd1 : i ∉ l1 := (List.nodup_cons.1 hr1.1).1
      have hnext2 : ((s.destruct i).node j).next = (s.node j).next := by
        rw [destruct_node_notin hr1 hjn]
      have huntouched : ∀ z ∈ l1, ((s.destruct i).copyConstruct i j).node z =
          (s.destruct i).node z := by
        intro z hz
        refine copyConstruct_node_other hij (fun hc => hnd1 (hc ▸ hz))
          (fun hc => hd z (List.mem_cons_of_mem i hz) (hc ▸ List.mem_cons_self j l2)) ?_
        rw [hnext2]
        exact fun hc =>
          hd z (List.mem_cons_of_mem i hz) (hc ▸ ring_next_head_mem hr2)
      constructor
      · rw [heq]
        refine isRing_congr ?_ hrest
        intro x hx
        rw [huntouched x hx]
        exact ⟨rfl, rfl⟩
      · intro z hz
        rw [heq, huntouched z hz,
          data_destruct_ne s i z (fun hc => hnd1 (hc ▸ hz))]
  · intro hr1 hj
    have hl1 : l1 ≠ [] := fun hc => by rw [hc] at hj; exact List.not_mem_nil j hj
    have hij : i ≠ j := fun hc => (List.nodup_cons.1 hr1.1).1 (hc ▸ hj)
    have hjm : j ∈ i :: l1 := List.mem_cons_of_mem i hj
    have him : i ∈ i :: l1 := List.mem_cons_self i l1
    have hguard : (s.node i).next ≠ (s.node j).next ∧
        (s.node i).prev ≠ (s.node j).prev :=
      ⟨ring_next_injective hr1 him hjm hij, ring_prev_injective hr1 him hjm hij⟩
    have heq : s.convAssign i j = (s.destruct i).copyConstruct i j := by
      unfold Heap.convAssign
      rw [if_pos hguard]
    have hnu : ¬ s.unique i = true := by
      intro hu
      exact hl1 ((unique_iff_ring hr1).1 hu).1
    constructor
    · rw [heq]
      have : ((s.destruct i).copyConstruct i j).freed = (s.destruct i).freed := rfl
      rw [this, freed_destruct, if_neg hnu]
    · rw [heq]
      unfold Heap.copyConstruct
      rw [data_insert, node_construct_self,
        data_destruct_ne s i j (fun hc => hij hc.symm)]

/-- C3 witness: self-assignment on a singleton is a no-op; converting
assignment of handle 3 (ring `[3, 4]` on 20) into handle 1 of the disjoint
ring `[1, 2]` on 10 frees nothing (handle 2 still owns 10), moves handle 1
into ring `[3, 1, 4]` with data 20, and keeps `[2]` valid with data 10;
assigning between the two members of one ring frees nothing. -/
theorem C3_conv_assign_witness :
    exA.convAssign 1 1 = exA ∧
    ((exABcd.convAssign 1 3).node 1).data = 20 ∧
    isRing (exABcd.convAssign 1 3) [3, 1, 4] ∧
    (exABcd.convAssign 1 3).freed = [] ∧
    isRing (exABcd.convAssign 1 3) [2] ∧
    (exAB.convAssign 1 2).freed = [] := by
  have h := (C3_conv_assign exABcd 1 3 [2] [4]).2.1
    (by decide) (by decide) (by decide)
  refine ⟨(C3_conv_assign exA 1 0 [] []).1, ?_, h.2.2.1, ?_, ?_, ?_⟩
  · rw [h.2.1]; decide
  · rw [h.2.2.2.1]; decide
  · exact (h.2.2.2.2 (by decide)).1
  · have h2 := (C3_conv_assign exAB 1 2 [2] []).2.2 (by decide) (by decide)
    rw [h2.1]; decide

section SwapBranches

variable (s : Heap) (i oth : Nat)

theorem is_unique_true_of (h1 : (s.node i).next = i) (h2 : (s.node i).prev = i) :
    s.is_unique i = true := by
  unfold Heap.is_unique
  simp [h1, h2]

theorem is_unique_false_of (h : (s.node i).next ≠ i) :
    s.is_unique i = false := by
  unfold Heap.is_unique
  simp [h]

/-- The `other.data == data` guard: `swap` returns immediately when the two
pointees coincide. -/
theorem swap_eq_same (h : (s.node oth).data = (s.node i).data) :
    s.swap i oth = s := by
  simp [Heap.swap, Heap.swapGo, h]

/-- Both handles singletons: `swap` exchanges the two data pointers and
returns without touching any link. -/
theorem swap_eq_case2 (hd : (s.node oth).data ≠ (s.node i).data)
    (h1 : s.is_unique i = true) (h2 : s.is_unique oth = true) :
    s.swap i oth =
      (s.setData i ((s.node oth).data)).setData oth ((s.node i).data) := by
  unfold Heap.swap
  simp only [Heap.swapGo, beq_iff_eq, hd, is_unique_setData, h1, h2,
    Bool.false_eq_true, if_true, if_false]

/-- `this` a singleton and `other` not: after exchanging data, `swap` splices
`this` in at `other`'s position and removes `other`. -/
theorem swap_eq_case3 (hd : (s.node oth).data ≠ (s.node i).data)
    (h1 : s.is_unique i = true) (h2 : s.is_unique oth = false) :
    s.swap i oth =
      ((((((s.setData i ((s.node oth).data)).setData oth
        ((s.node i).data)).setPrev (s.node oth).next i).setNext i
        ((s.node oth).next)).setNext oth i).setPrev i oth).remove oth := by
  unfold Heap.swap
  simp only [Heap.swapGo, beq_iff_eq, hd, is_unique_setData, h1, h2,
    Bool.false_eq_true, if_true, if_false, next_setData, next_setPrev]

/-- Neither handle a singleton: `swap` exchanges the two nodes' structural
positions with four pairwise pointer swaps.  The normal form resolves every
intermediate read back to the starting heap, under the side conditions that
neither handle is a neighbour of the other (automatic for distinct valid
rings). -/
theorem swap_eq_case5 (s : Heap) (i oth : Nat)
    (hd : (s.node oth).data ≠ (s.node i).data)
    (h1 : s.is_unique i = false) (h2 : s.is_unique oth = false)
    (ha : oth ≠ (s.node oth).next) (hb : oth ≠ (s.node i).next)
    (hc : i ≠ (s.node oth).next) (hdd : i ≠ (s.node i).next)
    (he : oth ≠ (s.node oth).prev) (hf : oth ≠ (s.node i).prev)
    (hg : i ≠ (s.node oth).prev) (hh : i ≠ (s.node i).prev) :
    s.swap i oth =
      (((((((((s.setData i ((s.node oth).data)).setData oth
        ((s.node i).data)).setPrev (s.node oth).next
        ((s.node ((s.node i).next)).prev)).setPrev (s.node i).next
        ((s.node ((s.node oth).next)).prev)).setNext (s.node oth).prev
        ((s.node ((s.node i).prev)).next)).setNext (s.node i).prev
        ((s.node ((s.node oth).prev)).next)).setNext oth
        ((s.node i).next)).setNext i ((s.node oth).next)).setPrev oth
        ((s.node i).prev)).setPrev i ((s.node oth).prev) := by
  unfold Heap.swap
  simp only [Heap.swapGo, beq_iff_eq, hd, is_unique_setData, h1, h2,
    Bool.false_eq_true, if_true, if_false, next_setData, next_setPrev,
    prev_setData, prev_setNext,
    node_setPrev_ne _ _ _ _ ha, node_setPrev_ne _ _ _ _ hb,
    node_setPrev_ne _ _ _ _ hc, node_setPrev_ne _ _ _ _ hdd,
    node_setNext_ne _ _ _ _ he, node_setNext_ne _ _ _ _ hf,
    node_setNext_ne _ _ _ _ hg, node_setNext_ne _ _ _ _ hh]

/-- Full effect of the `swap` case in which `this = i` is a singleton and
`other = oth` lives in a ring with at least one sibling: `i` takes over
`oth`'s exact former ring slot (now holding `oth`'s former data, which became
`i`'s data by the exchange), `oth` becomes a fresh singleton holding `i`'s
former data, and every sibling keeps its data. -/
theorem swap3_spec {s : Heap} {i oth h : Nat} {t : List Nat}
    (hr : isRing s (oth :: h :: t))
    (hin : (s.node i).next = i) (hip : (s.node i).prev = i)
    (hd : (s.node oth).data ≠ (s.node i).data)
    (hi : i ∉ oth :: h :: t) :
    isRing (s.swap i oth) (i :: h :: t) ∧
    ((s.swap i oth).node i).data = (s.node oth).data ∧
    (s.swap i oth).node oth =
      { next := oth, prev := oth, data := (s.node i).data } ∧
    ∀ z ∈ h :: t, ((s.swap i oth).node z).data = (s.node z).data := by
  obtain ⟨e1, e2, e3, e4, e5⟩ := isRing_cons_elim hr
  have hnd := hr.1
  have hothnot : oth ∉ h :: t := (List.nodup_cons.1 hnd).1
  have hndht : (h :: t).Nodup := (List.nodup_cons.1 hnd).2
  have hothh : oth ≠ h := fun hc => hothnot (hc ▸ List.mem_cons_self h t)
  have hLmem : (h :: t).getLast (List.cons_ne_nil h t) ∈ h :: t :=
    List.getLast_mem _
  have hioth : i ≠ oth := fun hc => hi (hc ▸ List.mem_cons_self oth (h :: t))
  have hiht : i ∉ h :: t := fun hc => hi (List.mem_cons_of_mem oth hc)
  have hih : i ≠ h := fun hc => hiht (hc ▸ List.mem_cons_self h t)
  have hiL : i ≠ (h :: t).getLast (List.cons_ne_nil h t) :=
    fun hc => hiht (hc ▸ hLmem)
  have hothL : oth ≠ (h :: t).getLast (List.cons_ne_nil h t) :=
    fun hc => hothnot (hc ▸ hLmem)
  have hu1 : s.is_unique i = true := is_unique_true_of s i hin hip
  have hu2 : s.is_unique oth = false :=
    is_unique_false_of s oth (by rw [e1]; exact fun hc => hothh hc.symm)
  have hs := swap_eq_case3 s i oth hd hu1 hu2
  rw [e1] at hs
  have A1 : (((((((s.setData i ((s.node oth).data)).setData oth
      ((s.node i).data)).setPrev h i).setNext i h).setNext oth
      i).setPrev i oth).node oth).next = i := by
    rw [next_setPrev, node_setNext_self]
  have A2 : (((((((s.setData i ((s.node oth).data)).setData oth
      ((s.node i).data)).setPrev h i).setNext i h).setNext oth
      i).setPrev i oth).node oth).prev =
      (h :: t).getLast (List.cons_ne_nil h t) := by
    rw [node_setPrev_ne _ _ _ _ hioth.symm, prev_setNext, prev_setNext,
      node_setPrev_ne _ _ _ _ hothh, prev_setData, prev_setData, e5]
  have A3 : (((((((s.setData i ((s.node oth).data)).setData oth
      ((s.node i).data)).setPrev h i).setNext i h).setNext oth
      i).setPrev i oth).node oth).data = (s.node i).data := by
    rw [data_setPrev, data_setNext, data_setNext, data_setPrev,
      node_setData_self]
  have B1 : (((((((s.setData i ((s.node oth).data)).setData oth
      ((s.node i).data)).setPrev h i).setNext i h).setNext oth
      i).setPrev i oth).node i).next = h := by
    rw [next_setPrev, node_setNext_ne _ _ _ _ hioth, node_setNext_self]
  have B3 : (((((((s.setData i ((s.node oth).data)).setData oth
      ((s.node i).data)).setPrev h i).setNext i h).setNext oth
      i).setPrev i oth).node i).data = (s.node oth).data := by
    rw [data_setPrev, data_setNext, data_setNext, data_setPrev,
      node_setData_ne _ _ _ _ hioth, node_setData_self]
  have C1 : (((((((s.setData i ((s.node oth).data)).setData oth
      ((s.node i).data)).setPrev h i).setNext i h).setNext oth
      i).setPrev i oth).node h).prev = i := by
    rw [node_setPrev_ne _ _ _ _ hih.symm, prev_setNext, prev_setNext,
      node_setPrev_self]
  refine ⟨?_, ?_, ?_, ?_⟩
  · rw [hs]
    refine isRing_subst hr hi ?_ ?_ ?_ ?_ ?_ ?_
    · rw [remove_next_untouched _ _ _ hioth (by rw [A2]; exact hiL)]
      exact B1
    · have hx := remove_node_ni_prev
        ((((((s.setData i ((s.node oth).data)).setData oth
          ((s.node i).data)).setPrev h i).setNext i h).setNext oth
          i).setPrev i oth) oth (by rw [A1]; exact hioth)
      rw [A1, A2] at hx
      exact hx
    · rw [remove_prev_untouched _ _ _ hothh.symm (by rw [A1]; exact hih.symm)]
      exact C1
    · have hx := remove_node_pi_next
        ((((((s.setData i ((s.node oth).data)).setData oth
          ((s.node i).data)).setPrev h i).setNext i h).setNext oth
          i).setPrev i oth) oth (by rw [A2]; exact fun hc => hothL hc.symm)
      rw [A2, A1] at hx
      exact hx
    · intro z hz
      have hz1 : z ≠ oth := fun hc => hothnot (hc ▸ List.mem_cons_of_mem h hz)
      have hz2 : z ≠ i := fun hc => hiht (hc ▸ List.mem_cons_of_mem h hz)
      have hz3 : z ≠ h := fun hc => (List.nodup_cons.1 hndht).1 (hc ▸ hz)
      rw [remove_prev_untouched _ _ _ hz1 (by rw [A1]; exact hz2)]
      rw [node_setPrev_ne _ _ _ _ hz2, prev_setNext, prev_setNext,
        node_setPrev_ne _ _ _ _ hz3, prev_setData, prev_setData]
    · intro z hz hzL
      have hz1 : z ≠ oth := fun hc => hothnot (hc ▸ hz)
      have hz2 : z ≠ i := fun hc => hiht (hc ▸ hz)
      rw [remove_next_untouched _ _ _ hz1 (by rw [A2]; exact hzL)]
      rw [next_setPrev, node_setNext_ne _ _ _ _ hz1,
        node_setNext_ne _ _ _ _ hz2, next_setPrev, next_setData, next_setData]
  · rw [hs, data_remove]
    exact B3
  · rw [hs, remove_node_self, A3]
  · intro z hz
    have hz1 : z ≠ oth := fun hc => hothnot (hc ▸ hz)
    have hz2 : z ≠ i := fun hc => hiht (hc ▸ hz)
    rw [hs, data_remove, data_setPrev, data_setNext, data_setNext,
      data_setPrev, node_setData_ne _ _ _ _ hz1, node_setData_ne _ _ _ _ hz2]

/-- Full effect of the `swap` case in which neither handle is a singleton and
the two rings are disjoint: the two nodes exchange structural positions (each
occupies the other's old slot, tracking the data it now holds) and every
other member of both rings keeps its links to the ring and its data. -/
theorem swap5_spec {s : Heap} {i oth h1 h2 : Nat} {t1 t2 : List Nat}
    (hr1 : isRing s (i :: h1 :: t1)) (hr2 : isRing s (oth :: h2 :: t2))
    (hd : (s.node oth).data ≠ (s.node i).data)
    (hdisj : ∀ x ∈ i :: h1 :: t1, x ∉ oth :: h2 :: t2) :
    isRing (s.swap i oth) (i :: h2 :: t2) ∧
    isRing (s.swap i oth) (oth :: h1 :: t1) ∧
    ((s.swap i oth).node i).data = (s.node oth).data ∧
    ((s.swap i oth).node oth).data = (s.node i).data ∧
    ∀ z, z ∈ h1 :: t1 ∨ z ∈ h2 :: t2 →
      ((s.swap i oth).node z).data = (s.node z).data := by
  obtain ⟨a1, a2, a3, a4, a5⟩ := isRing_cons_elim hr1
  obtain ⟨b1, b2, b3, b4, b5⟩ := isRing_cons_elim hr2
  have hnd1 := hr1.1
  have hnd2 := hr2.1
  have hit1 : i ∉ h1 :: t1 := (List.nodup_cons.1 hnd1).1
  have hot2 : oth ∉ h2 :: t2 := (List.nodup_cons.1 hnd2).1
  have hndt1 : (h1 :: t1).Nodup := (List.nodup_cons.1 hnd1).2
  have hndt2 : (h2 :: t2).Nodup := (List.nodup_cons.1 hnd2).2
  have hL1mem : (h1 :: t1).getLast (List.cons_ne_nil h1 t1) ∈ h1 :: t1 :=
    List.getLast_mem _
  have hL2mem : (h2 :: t2).getLast (List.cons_ne_nil h2 t2) ∈ h2 :: t2 :=
    List.getLast_mem _
  have hih1 : i ≠ h1 := fun hc => hit1 (hc ▸ List.mem_cons_self h1 t1)
  have hoh2 : oth ≠ h2 := fun hc => hot2 (hc ▸ List.mem_cons_self h2 t2)
  have hiL1 : i ≠ (h1 :: t1).getLast (List.cons_ne_nil h1 t1) :=
    fun hc => hit1 (hc ▸ hL1mem)
  have hoL2 : oth ≠ (h2 :: t2).getLast (List.cons_ne_nil h2 t2) :=
    fun hc => hot2 (hc ▸ hL2mem)
  have hy2 : i ∉ oth :: h2 :: t2 := hdisj i (List.mem_cons_self i (h1 :: t1))
  have hy1 : oth ∉ i :: h1 :: t1 :=
    fun hc => hdisj oth hc (List.mem_cons_self oth (h2 :: t2))
  have hio : i ≠ oth := fun hc => hy2 (hc ▸ List.mem_cons_self oth (h2 :: t2))
  have hih2 : i ≠ h2 := fun hc => hy2
    (by rw [hc]; exact List.mem_cons_of_mem oth (List.mem_cons_self h2 t2))
  have hiL2 : i ≠ (h2 :: t2).getLast (List.cons_ne_nil h2 t2) :=
    fun hc => hy2 (hc ▸ List.mem_cons_of_mem oth hL2mem)
  have hoh1 : oth ≠ h1 := fun hc => hy1
    (by rw [hc]; exact List.mem_cons_of_mem i (List.mem_cons_self h1 t1))
  have hoL1 : oth ≠ (h1 :: t1).getLast (List.cons_ne_nil h1 t1) :=
    fun hc => hy1 (hc ▸ List.mem_cons_of_mem i hL1mem)
  have hh1mem : h1 ∈ i :: h1 :: t1 :=
    List.mem_cons_of_mem i (List.mem_cons_self h1 t1)
  have hL1mem' : (h1 :: t1).getLast (List.cons_ne_nil h1 t1) ∈ i :: h1 :: t1 :=
    List.mem_cons_of_mem i hL1mem
  have hh1h2 : h1 ≠ h2 := fun hc => hdisj h1 hh1mem
    (by rw [hc]; exact List.mem_cons_of_mem oth (List.mem_cons_self h2 t2))
  have hh1L2 : h1 ≠ (h2 :: t2).getLast (List.cons_ne_nil h2 t2) := fun hc =>
    hdisj h1 hh1mem (hc ▸ List.mem_cons_of_mem oth hL2mem)
  have hL1h2 : (h1 :: t1).getLast (List.cons_ne_nil h1 t1) ≠ h2 :=
    fun hc => hdisj _ hL1mem'
      (by rw [hc]; exact List.mem_cons_of_mem oth (List.mem_cons_self h2 t2))
  have hL1L2 : (h1 :: t1).getLast (List.cons_ne_nil h1 t1) ≠
      (h2 :: t2).getLast (List.cons_ne_nil h2 t2) := fun hc =>
    hdisj _ hL1mem' (hc ▸ List.mem_cons_of_mem oth hL2mem)
  have hu1 : s.is_unique i = false :=
    is_unique_false_of s i (by rw [a1]; exact fun hc => hih1 hc.symm)
  have hu2 : s.is_unique oth = false :=
    is_unique_false_of s oth (by rw [b1]; exact fun hc => hoh2 hc.symm)
  have hs := swap_eq_case5 s i oth hd hu1 hu2
    (by rw [b1]; exact hoh2) (by rw [a1]; exact hoh1)
    (by rw [b1]; exact hih2) (by rw [a1]; exact hih1)
    (by rw [b5]; exact hoL2) (by rw [a5]; exact hoL1)
    (by rw [b5]; exact hiL2) (by rw [a5]; exact hiL1)
  rw [b1, a1, b5, a5, b2, a2, b4, a4] at hs
  refine ⟨?_, ?_, ?_, ?_, ?_⟩
  · rw [hs]
    refine isRing_subst hr2 hy2 ?_ ?_ ?_ ?_ ?_ ?_
    · rw [next_setPrev, next_setPrev, node_setNext_self]
    · rw [node_setPrev_self]
    · rw [node_setPrev_ne _ _ _ _ hih2.symm, node_setPrev_ne _ _ _ _ hoh2.symm,
        prev_setNext, prev_setNext, prev_setNext, prev_setNext,
        node_setPrev_ne _ _ _ _ hh1h2.symm, node_setPrev_self]
    · rw [next_setPrev, next_setPrev, node_setNext_ne _ _ _ _ hiL2.symm,
        node_setNext_ne _ _ _ _ hoL2.symm, node_setNext_ne _ _ _ _ hL1L2.symm,
        node_setNext_self]
    · intro z hz
      have hz0 : z ∈ oth :: h2 :: t2 :=
        List.mem_cons_of_mem oth (List.mem_cons_of_mem h2 hz)
      have hzi : z ≠ i := fun hc => hy2 (hc ▸ hz0)
      have hzo : z ≠ oth := fun hc =>
        hot2 (hc ▸ List.mem_cons_of_mem h2 hz)
      have hzh1 : z ≠ h1 := fun hc => hdisj h1 hh1mem (hc ▸ hz0)
      have hzh2 : z ≠ h2 := fun hc => (List.nodup_cons.1 hndt2).1 (hc ▸ hz)
      rw [node_setPrev_ne _ _ _ _ hzi, node_setPrev_ne _ _ _ _ hzo,
        prev_setNext, prev_setNext, prev_setNext, prev_setNext,
        node_setPrev_ne _ _ _ _ hzh1, node_setPrev_ne _ _ _ _ hzh2,
        prev_setData, prev_setData]
    · intro z hz hzL
      have hz0 : z ∈ oth :: h2 :: t2 := List.mem_cons_of_mem oth hz
      have hzi : z ≠ i := fun hc => hy2 (hc ▸ hz0)
      have hzo : z ≠ oth := fun hc => hot2 (hc ▸ hz)
      have hzL1 : z ≠ (h1 :: t1).getLast (List.cons_ne_nil h1 t1) :=
        fun hc => hdisj _ hL1mem' (hc ▸ hz0)
      rw [next_setPrev, next_setPrev, node_setNext_ne _ _ _ _ hzi,
        node_setNext_ne _ _ _ _ hzo, node_setNext_ne _ _ _ _ hzL1,
        node_setNext_ne _ _ _ _ hzL, next_setPrev, next_setPrev,
        next_setData, next_setData]
  · rw [hs]
    refine isRing_subst hr1 hy1 ?_ ?_ ?_ ?_ ?_ ?_
    · rw [next_setPrev, next_setPrev, node_setNext_ne _ _ _ _ hio.symm,
        node_setNext_self]
    · rw [node_setPrev_ne _ _ _ _ hio.symm, node_setPrev_self]
    · rw [node_setPrev_ne _ _ _ _ hih1.symm, node_setPrev_ne _ _ _ _ hoh1.symm,
        prev_setNext, prev_setNext, prev_setNext, prev_setNext,
        node_setPrev_self]
    · rw [next_setPrev, next_setPrev, node_setNext_ne _ _ _ _ hiL1.symm,
        node_setNext_ne _ _ _ _ hoL1.symm, node_setNext_self]
    · intro z hz
      have hz0 : z ∈ i :: h1 :: t1 :=
        List.mem_cons_of_mem i (List.mem_cons_of_mem h1 hz)
      have hzi : z ≠ i := fun hc =>
        hit1 (hc ▸ List.mem_cons_of_mem h1 hz)
      have hzo : z ≠ oth := fun hc => hy1 (hc ▸ hz0)
      have hzh1 : z ≠ h1 := fun hc => (List.nodup_cons.1 hndt1).1 (hc ▸ hz)
      have hzh2 : z ≠ h2 := fun hc => hdisj z hz0
        (by rw [hc]; exact List.mem_cons_of_mem oth (List.mem_cons_self h2 t2))
      rw [node_setPrev_ne _ _ _ _ hzi, node_setPrev_ne _ _ _ _ hzo,
        prev_setNext, prev_setNext, prev_setNext, prev_setNext,
        node_setPrev_ne _ _ _ _ hzh1, node_setPrev_ne _ _ _ _ hzh2,
        prev_setData, prev_setData]
    · intro z hz hzL
      have hz0 : z ∈ i :: h1 :: t1 := List.mem_cons_of_mem i hz
      have hzi : z ≠ i := fun hc => hit1 (hc ▸ hz)
      have hzo : z ≠ oth := fun hc => hy1 (hc ▸ hz0)
      have hzL2 : z ≠ (h2 :: t2).getLast (List.cons_ne_nil h2 t2) :=
        fun hc => hdisj z hz0 (hc ▸ List.mem_cons_of_mem oth hL2mem)
      rw [next_setPrev, next_setPrev, node_setNext_ne _ _ _ _ hzi,
        node_setNext_ne _ _ _ _ hzo, node_setNext_ne _ _ _ _ hzL,
        node_setNext_ne _ _ _ _ hzL2, next_setPrev, next_setPrev,
        next_setData, next_setData]
  · rw [hs, data_setPrev, data_setPrev, data_setNext, data_setNext,
      data_setNext, data_setNext, data_setPrev, data_setPrev,
      node_setData_ne _ _ _ _ hio, node_setData_self]
  · rw [hs, data_setPrev, data_setPrev, data_setNext, data_setNext,
      data_setNext, data_setNext, data_setPrev, data_setPrev,
      node_setData_self]
  · intro z hz
    have hzi : z ≠ i := by
      rcases hz with h | h
      · exact fun hc => hit1 (hc ▸ h)
      · exact fun hc => hy2 (hc ▸ List.mem_cons_of_mem oth h)
    have hzo : z ≠ oth := by
      rcases hz with h | h
      · exact fun hc => hy1 (hc ▸ List.mem_cons_of_mem i h)
      · exact fun hc => hot2 (hc ▸ h)
    rw [hs, data_setPrev, data_setPrev, data_setNext, data_setNext,
      data_setNext, data_setNext, data_setPrev, data_setPrev,
      node_setData_ne _ _ _ _ hzo, node_setData_ne _ _ _ _ hzi]

end SwapBranches

/-- C2.  `swap` follows the case analysis decided on link state after the
data pointers are exchanged: identical pointees mean an immediate no-op; two
singletons exchange only their data pointers; a singleton `this` facing a
non-singleton `other` takes over `other`'s exact former ring position
(co-owning the value that is now its data) while `other` becomes a fresh
singleton holding `this`'s former value; and two non-singletons in disjoint
rings exchange structural positions, every other member of both rings staying
validly linked with unchanged data. -/
theorem C2_swap (s : Heap) (i j h1 h2 : Nat) (t1 t2 : List Nat) :
    ((s.node j).data = (s.node i).data → s.swap i j = s) ∧
    ((s.node j).data ≠ (s.node i).data →
      (s.node i).next = i → (s.node i).prev = i →
      (s.node j).next = j → (s.node j).prev = j →
      s.swap i j =
        (s.setData i ((s.node j).data)).setData j ((s.node i).data)) ∧
    (isRing s (j :: h2 :: t2) →
      (s.node i).next = i → (s.node i).prev = i →
      (s.node j).data ≠ (s.node i).data → i ∉ j :: h2 :: t2 →
      isRing (s.swap i j) (i :: h2 :: t2) ∧
      ((s.swap i j).node i).data = (s.node j).data ∧
      (s.swap i j).node j = { next := j, prev := j, data := (s.node i).data } ∧
      ∀ z ∈ h2 :: t2, ((s.swap i j).node z).data = (s.node z).data) ∧
    (isRing s (i :: h1 :: t1) → isRing s (j :: h2 :: t2) →
      (s.node j).data ≠ (s.node i).data →
      (∀ x ∈ i :: h1 :: t1, x ∉ j :: h2 :: t2) →
      isRing (s.swap i j) (i :: h2 :: t2) ∧
      isRing (s.swap i j) (j :: h1 :: t1) ∧
      ((s.swap i j).node i).data = (s.node j).data ∧
      ((s.swap i j).node j).data = (s.node i).data ∧
      ∀ z, z ∈ h1 :: t1 ∨ z ∈ h2 :: t2 →
        ((s.swap i j).node z).data = (s.node z).data) := by
  refine ⟨swap_eq_same s i j, ?_, ?_, ?_⟩
  · intro hd hin hip hjn hjp
    exact swap_eq_case2 s i j hd (is_unique_true_of s i hin hip)
      (is_unique_true_of s j hjn hjp)
  · intro hr hin hip hd hi
    exact swap3_spec hr hin hip hd hi
  · intro hr1 hr2 hd hdisj
    exact swap5_spec hr1 hr2 hd hdisj

/-- C2 witness: the four cases at concrete heaps — the two members of one
ring (identical pointees) do not move; two singletons (addresses 10, 20) only
exchange data; singleton handle 3 swapped against ring member 1 takes 1's
slot in the ring `[1, 2]` while 1 becomes a singleton; and members 1 and 3 of
the two disjoint two-member rings exchange slots. -/
theorem C2_swap_witness :
    exAB.swap 1 2 = exAB ∧
    exAc.swap 1 3 =
      (exAc.setData 1 ((exAc.node 3).data)).setData 3 ((exAc.node 1).data) ∧
    (isRing (exABc.swap 3 1) [3, 2] ∧
      (exABc.swap 3 1).node 1 = { next := 1, prev := 1, data := 20 } ∧
      ((exABc.swap 3 1).node 3).data = 10) ∧
    (isRing (exABcd.swap 1 3) [1, 4] ∧
      isRing (exABcd.swap 1 3) [3, 2] ∧
      ((exABcd.swap 1 3).node 1).data = 20 ∧
      ((exABcd.swap 1 3).node 3).data = 10) := by
  refine ⟨?_, ?_, ?_, ?_⟩
  · exact (C2_swap exAB 1 2 0 0 [] []).1 (by decide)
  · exact (C2_swap exAc 1 3 0 0 [] []).2.1 (by decide) (by decide)
      (by decide) (by decide) (by decide)
  · obtain ⟨w1, w2, w3, -⟩ := (C2_swap exABc 3 1 0 2 [] []).2.2.1
      (by decide) (by decide) (by decide) (by decide) (by decide)
    refine ⟨w1, ?_, by rw [w2]; decide⟩
    rw [w3]
    decide
  · obtain ⟨w1, w2, w3, w4, -⟩ := (C2_swap exABcd 1 3 2 4 [] []).2.2.2
      (by decide) (by decide) (by decide) (by decide)
    exact ⟨w1, w2, by rw [w3]; decide, by rw [w4]; decide⟩

end Claims

end LinkedPtr
